import Mathlib

/-!
Parking lot storey: a verification development.

Shallow embedding of `models/storey.go`.

The Go program keeps the parked cars of one storey in a doubly linked list of
heap allocated `Slot` objects.  Pointers are modelled as addresses into an
explicit memory (`List Slot`, the address is the index, `none` is `nil`), so
that aliasing, stale back references and unlinked slots behave as in the
source.  Every recursive method of `Slot` follows `nextSlot` pointers; the
embedding gives them a fuel argument, and the `Storey` methods call them with
as much fuel as there are allocated slots, which is enough for every chain
that is not cyclic.  A result `none` stands for a run that does not return
(nil dereference or unbounded recursion).

The Go type `int` of positions, counts and `maxSlots` is modelled as `Int`:
a position or a count is at most the number of allocated slots, far from the
range where machine integers wrap.

Methods returning `(*Slot, error)` are modelled as `Except Error Nat`: the
address of the slot on success, the error otherwise (the placeholder
`&Slot{}` that the source returns next to an error is linked nowhere and is
not part of the memory).  The field `db` of `Storey` is never read or written
by the modelled code and is left out.
-/

namespace ParkingLot

/-! ## Data model -/

/-- The error values declared at the top of `storey.go`. -/
inductive Error where
  | ErrMaxSlotReached
  | ErrNoCarsParked
  | ErrCarNotFound
  | ErrCarWithColorNotFound
  deriving DecidableEq

/-- The struct `Car`. -/
structure Car where
  numberPlate : String
  color : String
  deriving DecidableEq

/-- The struct `Slot`; `prevSlot` and `nextSlot` are addresses, `car` is
`none` for a nil `*Car`. -/
structure Slot where
  prevSlot : Option Nat
  car : Option Car
  position : Int
  nextSlot : Option Nat
  deriving DecidableEq

/-- The struct `Storey` together with the memory its pointers live in. -/
structure Storey where
  maxSlots : Int
  slotList : Option Nat
  mem : List Slot
  deriving DecidableEq

/-- Allocation of a new object: it gets the next unused address. -/
def alloc (m : List Slot) (v : Slot) : Nat × List Slot :=
  (m.length, m ++ [v])

/-- Write through a pointer: `none` when the address is not allocated. -/
def store (m : List Slot) (a : Nat) (f : Slot → Slot) : Option (List Slot) :=
  match m[a]? with
  | none => none
  | some v => some (m.set a (f v))

/-- The function `NewCar`. -/
def NewCar (numberPlate color : String) : Car :=
  { numberPlate := numberPlate, color := color }

/-- The struct literal `Slot{car: car, position: position}`: both links nil. -/
def freshSlot (car : Car) (position : Int) : Slot :=
  { prevSlot := none, car := some car, position := position, nextSlot := none }

/-- The function `NewSlot`: `&Slot{car: car, position: position}`. -/
def NewSlot (m : List Slot) (car : Car) (position : Int) : Nat × List Slot :=
  alloc m (freshSlot car position)

/-- The function `NewStorey`. -/
def NewStorey (maxSlots : Int) : Storey :=
  { maxSlots := maxSlots, slotList := none, mem := [] }

/-! ## Methods of `Slot` -/

/-- The method `Slot.Position`. -/
def Slot.Position (s : Slot) : Int := s.position

/-- The method `Slot.RegistrationNumber`. -/
def Slot.RegistrationNumber (s : Slot) : String :=
  match s.car with
  | none => ""
  | some c => c.numberPlate

/-- The method `Slot.Color`. -/
def Slot.Color (s : Slot) : String :=
  match s.car with
  | none => ""
  | some c => c.color

/-- The method `Slot.ListSelf`. -/
def ListSelf (m : List Slot) : Nat → Nat → Option (List Slot)
  | 0, _ => none
  | fuel + 1, a =>
    match m[a]? with
    | none => none
    | some s =>
      match s.nextSlot with
      | none => some [s]
      | some n =>
        match ListSelf m fuel n with
        | none => none
        | some rest => some (s :: rest)

/-- The method `Slot.CountSelf`. -/
def CountSelf (m : List Slot) : Nat → Nat → Option Int
  | 0, _ => none
  | fuel + 1, a =>
    match m[a]? with
    | none => none
    | some s =>
      match s.nextSlot with
      | none => some 1
      | some n =>
        match CountSelf m fuel n with
        | none => none
        | some k => some (1 + k)

/-- The method `Slot.Leave`: the predecessor named by `prevSlot`, when there
is one, is made to point at the successor.  Nothing else is written. -/
def SlotLeave (m : List Slot) (a : Nat) : Option (List Slot) :=
  match m[a]? with
  | none => none
  | some s =>
    match s.prevSlot with
    | none => some m
    | some p => store m p (fun ps => { ps with nextSlot := s.nextSlot })

/-- The method `Slot.FindCar`. -/
def FindCar (m : List Slot) (numberPlate : String) : Nat → Nat → Option (Except Error Nat)
  | 0, _ => none
  | fuel + 1, a =>
    match m[a]? with
    | none => none
    | some s =>
      match s.car with
      | none => none
      | some c =>
        if c.numberPlate = numberPlate then some (.ok a)
        else
          match s.nextSlot with
          | none => some (.error .ErrCarNotFound)
          | some n => FindCar m numberPlate fuel n

/-- The method `Slot.FindPosition`. -/
def FindPosition (m : List Slot) (position : Int) : Nat → Nat → Option (Except Error Nat)
  | 0, _ => none
  | fuel + 1, a =>
    match m[a]? with
    | none => none
    | some s =>
      if s.position = position then some (.ok a)
      else
        match s.nextSlot with
        | none => some (.error .ErrCarNotFound)
        | some n => FindPosition m position fuel n

/-- The method `Slot.FindColor`. -/
def FindColor (m : List Slot) (color : String) : Nat → Nat → Option (Except Error (List Nat))
  | 0, _ => none
  | fuel + 1, a =>
    match m[a]? with
    | none => none
    | some s =>
      match s.car with
      | none => none
      | some c =>
        if c.color = color then
          match s.nextSlot with
          | none => some (.ok [a])
          | some n =>
            match FindColor m color fuel n with
            | none => none
            | some (.ok slots) => some (.ok (a :: slots))
            | some (.error e) => some (.error e)
        else
          match s.nextSlot with
          | none => some (.ok [])
          | some n => FindColor m color fuel n

/-- The method `Slot.UpdatePosition` (it returns its receiver). -/
def UpdatePosition (m : List Slot) (a : Nat) (position : Int) : Option (List Slot) :=
  store m a (fun s => { s with position := position })

/-- The method `Slot.AddNext`, receiver `a`, argument `sc`. -/
def AddNext (m : List Slot) (sc : Nat) : Nat → Nat → Option (List Slot)
  | 0, _ => none
  | fuel + 1, a =>
    match m[a]? with
    | none => none
    | some s =>
      match s.nextSlot with
      | none =>
        match UpdatePosition m sc (s.position + 1) with
        | none => none
        | some m1 =>
          match store m1 a (fun x => { x with nextSlot := some sc }) with
          | none => none
          | some m2 => store m2 sc (fun x => { x with prevSlot := some a })
      | some n =>
        match m[n]? with
        | none => none
        | some ns =>
          if ns.position > s.position + 1 then
            match UpdatePosition m sc (s.position + 1) with
            | none => none
            | some m1 =>
              match store m1 a (fun x => { x with nextSlot := some sc }) with
              | none => none
              | some m2 =>
                match store m2 sc (fun x => { x with prevSlot := some a }) with
                | none => none
                | some m3 =>
                  match store m3 sc (fun x => { x with nextSlot := some n }) with
                  | none => none
                  | some m4 => store m4 n (fun x => { x with prevSlot := some sc })
          else AddNext m sc fuel n

/-! ## Methods of `Storey` -/

/-- The method `Storey.OccupancyCount`. -/
def OccupancyCount (s : Storey) : Option Int :=
  match s.slotList with
  | none => some 0
  | some a => CountSelf s.mem s.mem.length a

/-- The method `Storey.AllSlots`. -/
def AllSlots (s : Storey) : Option (Except Error (List Slot)) :=
  match s.slotList with
  | none => some (.error .ErrNoCarsParked)
  | some a =>
    match ListSelf s.mem s.mem.length a with
    | none => none
    | some l => some (.ok l)

/-- The method `Storey.FindByRegistrationNumber`. -/
def FindByRegistrationNumber (s : Storey) (numberPlate : String) : Option (Except Error Nat) :=
  match s.slotList with
  | none => some (.error .ErrNoCarsParked)
  | some a => FindCar s.mem numberPlate s.mem.length a

/-- Dereference of a list of slot pointers, the loop at the end of
`Storey.FindAllByColor`. -/
def derefAll (m : List Slot) : List Nat → Option (List Slot)
  | [] => some []
  | a :: rest =>
    match m[a]? with
    | none => none
    | some s =>
      match derefAll m rest with
      | none => none
      | some l => some (s :: l)

/-- The method `Storey.FindAllByColor`. -/
def FindAllByColor (s : Storey) (color : String) : Option (Except Error (List Slot)) :=
  match s.slotList with
  | none => some (.error .ErrNoCarsParked)
  | some a =>
    match FindColor s.mem color s.mem.length a with
    | none => none
    | some (.error e) => some (.error e)
    | some (.ok slots) =>
      if slots.length = 0 then some (.error .ErrCarWithColorNotFound)
      else
        match derefAll s.mem slots with
        | none => none
        | some l => some (.ok l)

/-- The tail shared by `Storey.Leave` and `Storey.LeaveByPosition` once the
slot has been found: `slotFound.Leave()`, then the head is moved to the
successor when `slotFound.prevSlot` is nil. -/
def unlink (s : Storey) (slotFound : Nat) : Option (Except Error Nat × Storey) :=
  match SlotLeave s.mem slotFound with
  | none => none
  | some m1 =>
    match m1[slotFound]? with
    | none => none
    | some f =>
      match f.prevSlot with
      | none => some (.ok slotFound, { s with slotList := f.nextSlot, mem := m1 })
      | some _ => some (.ok slotFound, { s with mem := m1 })

/-- The method `Storey.Leave`. -/
def Leave (s : Storey) (numberPlate : String) : Option (Except Error Nat × Storey) :=
  match s.slotList with
  | none => some (.error .ErrNoCarsParked, s)
  | some a =>
    match FindCar s.mem numberPlate s.mem.length a with
    | none => none
    | some (.error _) => some (.error .ErrCarNotFound, s)
    | some (.ok slotFound) => unlink s slotFound

/-- The method `Storey.LeaveByPosition`. -/
def LeaveByPosition (s : Storey) (position : Int) : Option (Except Error Nat × Storey) :=
  match s.slotList with
  | none => some (.error .ErrNoCarsParked, s)
  | some a =>
    match FindPosition s.mem position s.mem.length a with
    | none => none
    | some (.error _) => some (.error .ErrCarNotFound, s)
    | some (.ok slotFound) => unlink s slotFound

/-- The block of `Storey.Park` guarded by `s.slotList.Position() > 1`: a new
head at position 1 is allocated, the old head is handed to its `AddNext` and
gets its back reference set.  The block does not return. -/
def parkBeforeHead (s : Storey) (car : Car) (currSlot : Nat) : Option Storey :=
  let (hd, m1) := NewSlot s.mem car 1
  match AddNext m1 currSlot m1.length hd with
  | none => none
  | some m2 =>
    match store m2 currSlot (fun x => { x with prevSlot := some hd }) with
    | none => none
    | some m3 => some { s with slotList := some hd, mem := m3 }

/-- The last three statements of `Storey.Park`: a slot is allocated at
position 0 and handed to the head's `AddNext`. -/
def parkAddNext (s : Storey) (car : Car) : Option (Except Error Nat × Storey) :=
  match s.slotList with
  | none => none
  | some hd =>
    let (slot, m1) := NewSlot s.mem car 0
    match AddNext m1 slot m1.length hd with
    | none => none
    | some m2 => some (.ok slot, { s with mem := m2 })

/-- The method `Storey.Park`.  `OccupancyCount` is read only, its two calls
give the same number. -/
def Park (s : Storey) (numberPlate color : String) : Option (Except Error Nat × Storey) :=
  match OccupancyCount s with
  | none => none
  | some cnt =>
    if cnt ≥ s.maxSlots then some (.error .ErrMaxSlotReached, s)
    else
      let car := NewCar numberPlate color
      if cnt = 0 then
        let (slot, m1) := NewSlot s.mem car 1
        some (.ok slot, { s with slotList := some slot, mem := m1 })
      else
        match s.slotList with
        | none => none
        | some hd =>
          match s.mem[hd]? with
          | none => none
          | some h =>
            if h.Position > 1 then
              match parkBeforeHead s car hd with
              | none => none
              | some s1 => parkAddNext s1 car
            else parkAddNext s car

/-! ## The chain as a list of cells -/

deriving instance DecidableEq for Except

/-- The `nextSlot` path that starts at pointer `o` visits exactly the cells
`l` (address and content) and then ends in nil. -/
def IsChain (m : List Slot) : Option Nat → List (Nat × Slot) → Prop
  | o, [] => o = none
  | o, x :: l => o = some x.1 ∧ m[x.1]? = some x.2 ∧ IsChain m x.2.nextSlot l

/-- The result of a search for the first cell satisfying `p`. -/
def firstAddr (p : Nat × Slot → Bool) (l : List (Nat × Slot)) : Except Error Nat :=
  match l.find? p with
  | some x => .ok x.1
  | none => .error .ErrCarNotFound

/-- The chain after `AddNext`: the cell `sc` is linked behind the first cell
whose successor is absent or more than one position away. -/
def insertAbs (sc : Nat) (scs : Slot) : List (Nat × Slot) → List (Nat × Slot)
  | [] => []
  | [x] =>
    [(x.1, { x.2 with nextSlot := some sc }),
     (sc, { scs with position := x.2.position + 1, prevSlot := some x.1 })]
  | x :: y :: rest =>
    if y.2.position > x.2.position + 1 then
      (x.1, { x.2 with nextSlot := some sc })
        :: (sc, { scs with position := x.2.position + 1, prevSlot := some x.1,
                           nextSlot := some y.1 })
        :: (y.1, { y.2 with prevSlot := some sc }) :: rest
    else x :: insertAbs sc scs (y :: rest)

/-- What the back reference of a chain cell can be: nil only when the cell
has no predecessor `pred`; otherwise an allocated address which, when it is
an address of the chain `all`, is the address of the predecessor. -/
def PrevLink (n : Nat) (all : List Nat) (pred : Option Nat) (s : Slot) : Prop :=
  (s.prevSlot = none → pred = none) ∧
    ∀ p, s.prevSlot = some p → p < n ∧ (p ∈ all → pred = some p)

/-- `PrevLink` for every cell of a chain whose first cell has predecessor `pred`. -/
def PrevOK (n : Nat) (all : List Nat) : Option Nat → List (Nat × Slot) → Prop
  | _, [] => True
  | pred, x :: l => PrevLink n all pred x.2 ∧ PrevOK n all (some x.1) l

/-- The invariant of the chain of a storey whose memory has `n` cells. -/
structure Good (n : Nat) (l : List (Nat × Slot)) : Prop where
  nodup : (l.map Prod.fst).Nodup
  cars : ∀ x ∈ l, x.2.car ≠ none
  sorted : l.Pairwise (fun x y => x.2.position < y.2.position)
  pos : ∀ x ∈ l, 1 ≤ x.2.position
  prev : PrevOK n (l.map Prod.fst) none l

/-- The chain after the block of `Storey.Park` that puts a new head before a
head `x` whose position is above 1: the new head `n` at position 1, then the
old head, which `AddNext` has renumbered to position 2. -/
def beforeHeadAbs (n : Nat) (car : Car) (x : Nat × Slot) (rest : List (Nat × Slot)) :
    List (Nat × Slot) :=
  (n, { freshSlot car 1 with nextSlot := some x.1 })
    :: (x.1, { x.2 with position := 2, prevSlot := some n }) :: rest

/-- The returned address and the chain after a `Storey.Park` that passed the
capacity check, for a memory of `n` cells. -/
def parkAbs (n : Nat) (car : Car) : List (Nat × Slot) → Nat × List (Nat × Slot)
  | [] => (n, [(n, freshSlot car 1)])
  | x :: rest =>
    if x.2.position > 1 then
      (n + 1, insertAbs (n + 1) (freshSlot car 0) (beforeHeadAbs n car x rest))
    else
      (n, insertAbs n (freshSlot car 0) (x :: rest))

/-- The invariant of a storey: the head starts a chain of cells that
satisfies `Good`. -/
def Inv (s : Storey) : Prop :=
  ∃ l, IsChain s.mem s.slotList l ∧ Good s.mem.length l

/-- The storey states that calls of `Park`, `Leave` and `LeaveByPosition`
can produce from `NewStorey n`. -/
inductive Reachable : Storey → Prop
  | init (n : Int) : Reachable (NewStorey n)
  | park {s s' : Storey} {r : Except Error Nat} (numberPlate color : String) :
      Reachable s → Park s numberPlate color = some (r, s') → Reachable s'
  | leave {s s' : Storey} {r : Except Error Nat} (numberPlate : String) :
      Reachable s → Leave s numberPlate = some (r, s') → Reachable s'
  | leaveByPosition {s s' : Storey} {r : Except Error Nat} (position : Int) :
      Reachable s → LeaveByPosition s position = some (r, s') → Reachable s'

/-- The state after a call of `Park` (the state itself if the call does not return). -/
def afterPark (s : Storey) (numberPlate color : String) : Storey :=
  match Park s numberPlate color with
  | some (_, s') => s'
  | none => s

/-- The state after a call of `LeaveByPosition`. -/
def afterLeaveByPosition (s : Storey) (position : Int) : Storey :=
  match LeaveByPosition s position with
  | some (_, s') => s'
  | none => s

/-- The state after a call of `Leave`. -/
def afterLeave (s : Storey) (numberPlate : String) : Storey :=
  match Leave s numberPlate with
  | some (_, s') => s'
  | none => s

/-- A full storey of capacity 1 holding the plate KA-01. -/
def fullOne : Storey := afterPark (NewStorey 1) "KA-01" "white"

/-- Capacity 2, plates A and B parked at positions 1 and 2. -/
def twoParked : Storey := afterPark (afterPark (NewStorey 2) "A" "red") "B" "blue"

/-- The state `twoParked` after `LeaveByPosition(1)`: one slot, at position 2. -/
def headFreed : Storey := afterLeaveByPosition twoParked 1

/-- Capacity 3, plates P1 (red), P2 (blue), P3 (red) parked in that order. -/
def threeColors : Storey :=
  afterPark (afterPark (afterPark (NewStorey 3) "P1" "red") "P2" "blue") "P3" "red"

/-- The state `threeColors` after `LeaveByPosition(2)`: positions 1 and 3. -/
def gapped : Storey := afterLeaveByPosition threeColors 2

/-- Capacity 2, plate A parked at position 1. -/
def oneParked : Storey := afterPark (NewStorey 2) "A" "red"

/-- The slice that a `([]Slot, error)` result carries: every error return of
`Storey.AllSlots` and `Storey.FindAllByColor` is `[]Slot{}, err`. -/
def returnedSlots (r : Except Error (List Slot)) : List Slot :=
  match r with
  | .ok l => l
  | .error _ => []

/-- What the accessors of a slot show: `Position()`, `RegistrationNumber()`
and `Color()`. -/
def Slot.triple (s : Slot) : Int × String × String :=
  (s.Position, s.RegistrationNumber, s.Color)

/-- Capacity 3, plates A, B, C parked at positions 1, 2, 3. -/
def threeParked : Storey :=
  afterPark (afterPark (afterPark (NewStorey 3) "A" "red") "B" "blue") "C" "grey"

/-- The state `threeParked` after `LeaveByPosition(2)` and `LeaveByPosition(1)`:
one slot, at position 3. -/
def onlyThird : Storey := afterLeaveByPosition (afterLeaveByPosition threeParked 2) 1

/-- A run of `Park` calls, one per (plate, color) pair, all of which succeed:
`none` as soon as a call fails or does not return. -/
def parkMany (s : Storey) : List (String × String) → Option Storey
  | [] => some s
  | pc :: rest =>
    match Park s pc.1 pc.2 with
    | some (.ok _, s') => parkMany s' rest
    | _ => none

/-- The positions of the cells are `p`, `p + 1`, `p + 2`, and so on. -/
def Consec : Int → List (Nat × Slot) → Prop
  | _, [] => True
  | p, x :: l => x.2.position = p ∧ Consec (p + 1) l

/-- The state of a storey of capacity `n` after `j` calls of `Park` and no
release: `j` cells at positions 1 to `j`, the first without back reference. -/
def FreshRun (n : Int) (j : Nat) (s : Storey) : Prop :=
  s.maxSlots = n ∧
  ∃ c, IsChain s.mem s.slotList c ∧ Good s.mem.length c ∧ c.length = j ∧ Consec 1 c ∧
    ∀ x ∈ c.head?, x.2.prevSlot = none

/-! ## Memory and chain lemmas -/

theorem IsChain.frame {m m' : List Slot} {l : List (Nat × Slot)} :
    ∀ {o : Option Nat}, IsChain m o l → (∀ x ∈ l, m'[x.1]? = m[x.1]?) → IsChain m' o l := by
  induction l with
  | nil => intro o h _; exact h
  | cons x l ih =>
    intro o h hf
    obtain ⟨h1, h2, h3⟩ := h
    refine ⟨h1, ?_, ih h3 (fun y hy => hf y (List.mem_cons_of_mem _ hy))⟩
    rw [hf x (List.mem_cons_self _ _)]; exact h2

theorem IsChain.lt_length {m : List Slot} {l : List (Nat × Slot)} :
    ∀ {o : Option Nat}, IsChain m o l → ∀ x ∈ l, x.1 < m.length := by
  induction l with
  | nil => intro o _ x hx; cases hx
  | cons y l ih =>
    intro o h x hx
    obtain ⟨_, h2, h3⟩ := h
    rcases List.mem_cons.1 hx with rfl | hx
    · by_contra hc
      rw [List.getElem?_eq_none (by omega)] at h2
      cases h2
    · exact ih h3 x hx

theorem IsChain.mem_get {m : List Slot} {l : List (Nat × Slot)} :
    ∀ {o : Option Nat}, IsChain m o l → ∀ x ∈ l, m[x.1]? = some x.2 := by
  induction l with
  | nil => intro o _ x hx; cases hx
  | cons y l ih =>
    intro o h x hx
    obtain ⟨_, h2, h3⟩ := h
    rcases List.mem_cons.1 hx with rfl | hx
    · exact h2
    · exact ih h3 x hx

theorem ListSelf_chain {m : List Slot} {l : List (Nat × Slot)} :
    ∀ {a : Nat} {fuel : Nat}, IsChain m (some a) l → l.length ≤ fuel →
      ListSelf m fuel a = some (l.map Prod.snd) := by
  induction l with
  | nil => intro a fuel h; cases h
  | cons x l ih =>
    intro a fuel h hf
    obtain ⟨h1, h2, h3⟩ := h
    cases h1
    cases fuel with
    | zero => simp at hf
    | succ fuel =>
      simp only [List.length_cons, add_le_add_iff_right] at hf
      cases l with
      | nil =>
        have h3' : x.2.nextSlot = none := h3
        simp [ListSelf, h2, h3']
      | cons y l =>
        have h3' : x.2.nextSlot = some y.1 := h3.1
        simp only [ListSelf, h2, h3']
        rw [ih (h3' ▸ h3) hf]
        simp

theorem CountSelf_chain {m : List Slot} {l : List (Nat × Slot)} :
    ∀ {a : Nat} {fuel : Nat}, IsChain m (some a) l → l.length ≤ fuel →
      CountSelf m fuel a = some (l.length : Int) := by
  induction l with
  | nil => intro a fuel h; cases h
  | cons x l ih =>
    intro a fuel h hf
    obtain ⟨h1, h2, h3⟩ := h
    cases h1
    cases fuel with
    | zero => simp at hf
    | succ fuel =>
      simp only [List.length_cons, add_le_add_iff_right] at hf
      cases l with
      | nil =>
        have h3' : x.2.nextSlot = none := h3
        simp [CountSelf, h2, h3']
      | cons y l =>
        have h3' : x.2.nextSlot = some y.1 := h3.1
        simp only [CountSelf, h2, h3']
        rw [ih (h3' ▸ h3) hf]
        simp; omega

theorem firstAddr_cons (p : Nat × Slot → Bool) (x : Nat × Slot) (l : List (Nat × Slot)) :
    firstAddr p (x :: l) = if p x then .ok x.1 else firstAddr p l := by
  unfold firstAddr
  by_cases h : p x <;> simp [List.find?, h]

theorem FindCar_chain {m : List Slot} {plate : String} {l : List (Nat × Slot)} :
    ∀ {a : Nat} {fuel : Nat}, IsChain m (some a) l → l.length ≤ fuel →
      (∀ x ∈ l, x.2.car ≠ none) →
      FindCar m plate fuel a
        = some (firstAddr (fun x => decide (x.2.RegistrationNumber = plate)) l) := by
  induction l with
  | nil => intro a fuel h; cases h
  | cons x l ih =>
    intro a fuel h hf hc
    obtain ⟨h1, h2, h3⟩ := h
    cases h1
    cases fuel with
    | zero => simp at hf
    | succ fuel =>
      simp only [List.length_cons, add_le_add_iff_right] at hf
      have hx := hc x (List.mem_cons_self _ _)
      obtain ⟨c, hcar⟩ := Option.ne_none_iff_exists'.1 hx
      rw [firstAddr_cons]
      by_cases hp : c.numberPlate = plate
      · simp [FindCar, h2, hcar, hp, Slot.RegistrationNumber]
      · cases l with
        | nil =>
          have h3' : x.2.nextSlot = none := h3
          simp [FindCar, h2, hcar, hp, Slot.RegistrationNumber, h3', firstAddr]
        | cons y l =>
          have h3' : x.2.nextSlot = some y.1 := h3.1
          simp only [FindCar, h2, hcar, hp, Slot.RegistrationNumber, h3', if_false]
          rw [ih (h3' ▸ h3) hf (fun z hz => hc z (List.mem_cons_of_mem _ hz))]
          simp [Slot.RegistrationNumber]

theorem FindPosition_chain {m : List Slot} {p : Int} {l : List (Nat × Slot)} :
    ∀ {a : Nat} {fuel : Nat}, IsChain m (some a) l → l.length ≤ fuel →
      FindPosition m p fuel a = some (firstAddr (fun x => decide (x.2.position = p)) l) := by
  induction l with
  | nil => intro a fuel h; cases h
  | cons x l ih =>
    intro a fuel h hf
    obtain ⟨h1, h2, h3⟩ := h
    cases h1
    cases fuel with
    | zero => simp at hf
    | succ fuel =>
      simp only [List.length_cons, add_le_add_iff_right] at hf
      rw [firstAddr_cons]
      by_cases hp : x.2.position = p
      · simp [FindPosition, h2, hp]
      · cases l with
        | nil =>
          have h3' : x.2.nextSlot = none := h3
          simp [FindPosition, h2, hp, h3', firstAddr]
        | cons y l =>
          have h3' : x.2.nextSlot = some y.1 := h3.1
          simp only [FindPosition, h2, hp, h3', if_false]
          rw [ih (h3' ▸ h3) hf]
          simp [hp]

theorem FindColor_chain {m : List Slot} {color : String} {l : List (Nat × Slot)} :
    ∀ {a : Nat} {fuel : Nat}, IsChain m (some a) l → l.length ≤ fuel →
      (∀ x ∈ l, x.2.car ≠ none) →
      FindColor m color fuel a
        = some (.ok ((l.filter (fun x => decide (x.2.Color = color))).map Prod.fst)) := by
  induction l with
  | nil => intro a fuel h; cases h
  | cons x l ih =>
    intro a fuel h hf hc
    obtain ⟨h1, h2, h3⟩ := h
    cases h1
    cases fuel with
    | zero => simp at hf
    | succ fuel =>
      simp only [List.length_cons, add_le_add_iff_right] at hf
      have hx := hc x (List.mem_cons_self _ _)
      obtain ⟨c, hcar⟩ := Option.ne_none_iff_exists'.1 hx
      cases l with
      | nil =>
        have h3' : x.2.nextSlot = none := h3
        by_cases hp : c.color = color <;>
          simp [FindColor, h2, hcar, hp, Slot.Color, h3', List.filter]
      | cons y l =>
        have h3' : x.2.nextSlot = some y.1 := h3.1
        have ih' := ih (h3' ▸ h3) hf (fun z hz => hc z (List.mem_cons_of_mem _ hz))
        have hxc : x.2.Color = c.color := by simp [Slot.Color, hcar]
        by_cases hp : c.color = color
        · have hfil : List.filter (fun x => decide (x.2.Color = color)) (x :: y :: l)
              = x :: List.filter (fun x => decide (x.2.Color = color)) (y :: l) :=
            List.filter_cons_of_pos (by simp [hxc, hp])
          simp only [FindColor, h2, hcar, hp, h3', if_true]
          rw [ih', hfil]
          rfl
        · have hfil : List.filter (fun x => decide (x.2.Color = color)) (x :: y :: l)
              = List.filter (fun x => decide (x.2.Color = color)) (y :: l) :=
            List.filter_cons_of_neg (by simp [hxc, hp])
          simp only [FindColor, h2, hcar, hp, h3', if_false]
          rw [ih', hfil]

theorem derefAll_cells {m : List Slot} {l : List (Nat × Slot)}
    (h : ∀ x ∈ l, m[x.1]? = some x.2) :
    derefAll m (l.map Prod.fst) = some (l.map Prod.snd) := by
  induction l with
  | nil => rfl
  | cons x l ih =>
    simp only [List.map_cons, derefAll, h x (List.mem_cons_self _ _)]
    rw [ih (fun y hy => h y (List.mem_cons_of_mem _ hy))]

theorem store_some {m : List Slot} {a : Nat} {v : Slot} (f : Slot → Slot)
    (h : m[a]? = some v) : store m a f = some (m.set a (f v)) := by
  simp [store, h]

theorem get_set {m : List Slot} {a : Nat} {w : Slot} (v : Slot) (b : Nat)
    (h : m[a]? = some w) : (m.set a v)[b]? = if b = a then some v else m[b]? := by
  have hlt : a < m.length := by
    by_contra hc
    rw [List.getElem?_eq_none (by omega)] at h
    cases h
  rw [List.getElem?_set]
  by_cases hb : b = a
  · subst hb; simp [hlt]
  · have : ¬ a = b := fun e => hb e.symm
    simp [hb, this]

theorem AddNext_chain {m : List Slot} {sc : Nat} {scs : Slot} {l : List (Nat × Slot)} :
    ∀ {a : Nat} {fuel : Nat}, IsChain m (some a) l → l.length ≤ fuel →
      (l.map Prod.fst).Nodup → sc ∉ l.map Prod.fst → m[sc]? = some scs →
      scs.nextSlot = none →
      ∃ m', AddNext m sc fuel a = some m' ∧ IsChain m' (some a) (insertAbs sc scs l)
        ∧ m'.length = m.length
        ∧ ∀ b, b ≠ sc → b ∉ l.map Prod.fst → m'[b]? = m[b]? := by
  induction l with
  | nil => intro a fuel h; cases h
  | cons x l ih =>
    intro a fuel h hf hnd hsc hm hnx
    obtain ⟨h1, h2, h3⟩ := h
    cases h1
    cases fuel with
    | zero => simp at hf
    | succ fuel =>
      simp only [List.length_cons, add_le_add_iff_right] at hf
      have hxsc : x.1 ≠ sc := by
        intro e; apply hsc; simp [e]
      have e1 : (m.set sc { scs with position := x.2.position + 1 })[x.1]? = some x.2 := by
        rw [get_set _ _ hm]; simp [hxsc, h2]
      have e2 : ((m.set sc { scs with position := x.2.position + 1 }).set x.1
          { x.2 with nextSlot := some sc })[sc]?
            = some { scs with position := x.2.position + 1 } := by
        rw [get_set _ _ e1, if_neg (Ne.symm hxsc), get_set _ _ hm]; simp
      cases l with
      | nil =>
        have h3' : x.2.nextSlot = none := h3
        refine ⟨((m.set sc { scs with position := x.2.position + 1 }).set x.1
          { x.2 with nextSlot := some sc }).set sc
          { scs with position := x.2.position + 1, prevSlot := some x.1 }, ?_, ?_, ?_, ?_⟩
        · simp only [AddNext, h2, h3', UpdatePosition, store_some _ hm, store_some _ e1,
            store_some _ e2]
        · refine ⟨rfl, ?_, rfl, ?_, ?_⟩
          · rw [get_set _ _ e2, if_neg hxsc, get_set _ _ e1]; simp
          · rw [get_set _ _ e2]; simp
          · exact hnx
        · simp
        · intro b hb hbl
          have hbx : b ≠ x.1 := by
            intro e; apply hbl; simp [e]
          rw [get_set _ _ e2, if_neg hb, get_set _ _ e1, if_neg hbx, get_set _ _ hm, if_neg hb]
      | cons y rest =>
        obtain ⟨h3', hy, hrest⟩ := h3
        have hxy : x.1 ≠ y.1 := by
          intro e
          simp only [List.map_cons, List.nodup_cons, List.mem_cons] at hnd
          exact hnd.1 (Or.inl e)
        have hysc : y.1 ≠ sc := by
          intro e; apply hsc; simp [e]
        by_cases hgap : y.2.position > x.2.position + 1
        · have e3 := get_set { scs with position := x.2.position + 1, prevSlot := some x.1 }
            sc e2
          simp only [if_true] at e3
          have e4 := get_set
            { scs with position := x.2.position + 1, prevSlot := some x.1, nextSlot := some y.1 }
            y.1 e3
          rw [if_neg hysc, get_set _ _ e2, if_neg hysc, get_set _ _ e1, if_neg (Ne.symm hxy),
            get_set _ _ hm, if_neg hysc, hy] at e4
          refine ⟨((((m.set sc { scs with position := x.2.position + 1 }).set x.1
            { x.2 with nextSlot := some sc }).set sc
            { scs with position := x.2.position + 1, prevSlot := some x.1 }).set sc
            { scs with position := x.2.position + 1, prevSlot := some x.1,
                       nextSlot := some y.1 }).set y.1
            { y.2 with prevSlot := some sc }, ?_, ?_, ?_, ?_⟩
          · simp only [AddNext, h2, h3', hy, hgap, if_true, UpdatePosition, store_some _ hm,
              store_some _ e1, store_some _ e2, store_some _ e3, store_some _ e4]
          · simp only [insertAbs, hgap, if_true]
            refine ⟨rfl, ?_, rfl, ?_, rfl, ?_, ?_⟩
            · rw [get_set _ _ e4, if_neg hxy, get_set _ _ e3, if_neg hxsc, get_set _ _ e2,
                if_neg hxsc, get_set _ _ e1]; simp
            · rw [get_set _ _ e4, if_neg (Ne.symm hysc), get_set _ _ e3]; simp
            · rw [get_set _ _ e4]; simp
            · refine hrest.frame ?_
              intro z hz
              have hzy : z.1 ≠ y.1 := by
                intro e
                simp only [List.map_cons, List.nodup_cons, List.mem_cons, List.mem_map] at hnd
                exact hnd.2.1 ⟨z, hz, e⟩
              have hzx : z.1 ≠ x.1 := by
                intro e
                simp only [List.map_cons, List.nodup_cons, List.mem_cons, List.mem_map] at hnd
                exact hnd.1 (Or.inr ⟨z, hz, e⟩)
              have hzsc : z.1 ≠ sc := by
                intro e; apply hsc
                simp only [List.map_cons, List.mem_cons, List.mem_map]
                exact Or.inr (Or.inr ⟨z, hz, e⟩)
              rw [get_set _ _ e4, if_neg hzy, get_set _ _ e3, if_neg hzsc, get_set _ _ e2,
                if_neg hzsc, get_set _ _ e1, if_neg hzx, get_set _ _ hm, if_neg hzsc]
          · simp
          · intro b hb hbl
            simp only [List.map_cons, List.mem_cons, not_or] at hbl
            rw [get_set _ _ e4, if_neg hbl.2.1, get_set _ _ e3, if_neg hb, get_set _ _ e2,
              if_neg hb, get_set _ _ e1, if_neg hbl.1, get_set _ _ hm, if_neg hb]
        · have hnd' : ((y :: rest).map Prod.fst).Nodup := by
            simp only [List.map_cons, List.nodup_cons] at hnd ⊢
            exact hnd.2
          have hsc' : sc ∉ (y :: rest).map Prod.fst := by
            intro hc; apply hsc
            simp only [List.map_cons, List.mem_cons] at hc ⊢
            exact Or.inr hc
          obtain ⟨m', r1, r2, r3, r4⟩ :=
            @ih y.1 fuel ⟨rfl, hy, hrest⟩ hf hnd' hsc' hm hnx
          refine ⟨m', ?_, ?_, r3, ?_⟩
          · simp only [AddNext, h2, h3', hy, hgap, if_false]
            exact r1
          · simp only [insertAbs, hgap, if_false]
            refine ⟨rfl, ?_, ?_⟩
            · rw [r4 x.1 hxsc ?_]
              · exact h2
              · intro hc
                simp only [List.map_cons, List.nodup_cons] at hnd
                exact hnd.1 hc
            · rw [h3']; exact r2
          · intro b hb hbl
            apply r4 b hb
            intro hc; apply hbl
            simp only [List.map_cons, List.mem_cons] at hc ⊢
            exact Or.inr hc

theorem PrevOK.mono {n n' : Nat} {all all' : List Nat} {l : List (Nat × Slot)}
    (hn : n ≤ n') (hall : ∀ p, p < n → p ∈ all' → p ∈ all) :
    ∀ {pred : Option Nat}, PrevOK n all pred l → PrevOK n' all' pred l := by
  induction l with
  | nil => intro _ _; trivial
  | cons x l ih =>
    intro pred h
    refine ⟨⟨h.1.1, ?_⟩, ih h.2⟩
    intro p hp
    obtain ⟨h1, h2⟩ := h.1.2 p hp
    exact ⟨by omega, fun hm => h2 (hall p h1 hm)⟩

theorem insertAbs_fst (sc : Nat) (scs : Slot) :
    ∀ (l : List (Nat × Slot)), l ≠ [] →
      ((insertAbs sc scs l).map Prod.fst).Perm (sc :: l.map Prod.fst) := by
  intro l
  induction l with
  | nil => intro h; exact absurd rfl h
  | cons x l ih =>
    intro _
    cases l with
    | nil =>
      simp only [insertAbs, List.map_cons, List.map_nil]
      exact List.Perm.swap _ _ _
    | cons y rest =>
      by_cases hgap : y.2.position > x.2.position + 1
      · simp only [insertAbs, hgap, if_true, List.map_cons]
        exact List.Perm.swap _ _ _
      · simp only [insertAbs, hgap, if_false, List.map_cons]
        refine List.Perm.trans (List.Perm.cons _ (ih (by simp))) ?_
        simp only [List.map_cons]
        exact List.Perm.swap _ _ _

theorem insertAbs_mem (sc : Nat) (scs : Slot) :
    ∀ (l : List (Nat × Slot)) (z : Nat × Slot), z ∈ insertAbs sc scs l →
      (z.1 = sc ∧ z.2.car = scs.car ∧ ∃ w ∈ l, z.2.position = w.2.position + 1) ∨
      (∃ w ∈ l, z.1 = w.1 ∧ z.2.car = w.2.car ∧ z.2.position = w.2.position) := by
  intro l
  induction l with
  | nil => intro z hz; cases hz
  | cons x l ih =>
    intro z hz
    cases l with
    | nil =>
      simp only [insertAbs, List.mem_cons, List.mem_singleton, List.not_mem_nil, or_false] at hz
      rcases hz with rfl | rfl
      · exact Or.inr ⟨x, List.mem_cons_self _ _, rfl, rfl, rfl⟩
      · exact Or.inl ⟨rfl, rfl, x, List.mem_cons_self _ _, rfl⟩
    | cons y rest =>
      by_cases hgap : y.2.position > x.2.position + 1
      · simp only [insertAbs, hgap, if_true, List.mem_cons] at hz
        rcases hz with rfl | rfl | rfl | hz
        · exact Or.inr ⟨x, List.mem_cons_self _ _, rfl, rfl, rfl⟩
        · exact Or.inl ⟨rfl, rfl, x, List.mem_cons_self _ _, rfl⟩
        · exact Or.inr ⟨y, by simp, rfl, rfl, rfl⟩
        · exact Or.inr ⟨z, by simp [hz], rfl, rfl, rfl⟩
      · simp only [insertAbs, hgap, if_false] at hz
        rcases List.mem_cons.1 hz with rfl | hz
        · exact Or.inr ⟨z, List.mem_cons_self _ _, rfl, rfl, rfl⟩
        · rcases ih z hz with ⟨h1, h2, w, hw, h3⟩ | ⟨w, hw, h⟩
          · exact Or.inl ⟨h1, h2, w, List.mem_cons_of_mem _ hw, h3⟩
          · exact Or.inr ⟨w, List.mem_cons_of_mem _ hw, h⟩

theorem insertAbs_head_position (sc : Nat) (scs : Slot) (x : Nat × Slot)
    (l : List (Nat × Slot)) :
    ∃ v l', insertAbs sc scs (x :: l) = v :: l' ∧ v.1 = x.1 ∧ v.2.position = x.2.position
      ∧ v.2.prevSlot = x.2.prevSlot := by
  cases l with
  | nil => exact ⟨_, _, rfl, rfl, rfl, rfl⟩
  | cons y rest =>
    by_cases h : y.2.position > x.2.position + 1
    · simp only [insertAbs, h, if_true]
      exact ⟨_, _, rfl, rfl, rfl, rfl⟩
    · simp only [insertAbs, h, if_false]
      exact ⟨x, _, rfl, rfl, rfl, rfl⟩

theorem insertAbs_chain' (sc : Nat) (scs : Slot) :
    ∀ (l : List (Nat × Slot)),
      l.Chain' (fun x y => x.2.position < y.2.position) →
      (insertAbs sc scs l).Chain' (fun x y => x.2.position < y.2.position) := by
  intro l
  induction l with
  | nil => intro _; exact List.chain'_nil
  | cons x l ih =>
    intro h
    cases l with
    | nil =>
      simp only [insertAbs, List.chain'_cons, List.chain'_singleton, and_true]
      omega
    | cons y rest =>
      rw [List.chain'_cons] at h
      by_cases hgap : y.2.position > x.2.position + 1
      · simp only [insertAbs, hgap, if_true, List.chain'_cons]
        refine ⟨by simp, by simp [hgap], ?_⟩
        cases rest with
        | nil => exact List.chain'_singleton _
        | cons z rest' =>
          have h2 := h.2
          rw [List.chain'_cons] at h2 ⊢
          exact h2
      · simp only [insertAbs, hgap, if_false]
        obtain ⟨v, l', hv, _, hvp, _⟩ := insertAbs_head_position sc scs y rest
        have ih' := ih h.2
        rw [hv] at ih' ⊢
        rw [List.chain'_cons]
        exact ⟨by rw [hvp]; exact h.1, ih'⟩

theorem PrevOK_insertAbs {n : Nat} {all : List Nat} {sc : Nat} {scs : Slot}
    (hsc : sc < n) :
    ∀ (l : List (Nat × Slot)) (pred : Option Nat), (∀ x ∈ l, x.1 < n) →
      PrevOK n all pred l → PrevOK n all pred (insertAbs sc scs l) := by
  intro l
  induction l with
  | nil => intro _ _ _; trivial
  | cons x l ih =>
    intro pred hlt h
    have hx := hlt x (List.mem_cons_self _ _)
    cases l with
    | nil =>
      refine ⟨h.1, ⟨?_, ?_⟩, trivial⟩
      · intro hc; cases hc
      · intro p hp
        cases hp
        exact ⟨hx, fun _ => rfl⟩
    | cons y rest =>
      by_cases hgap : y.2.position > x.2.position + 1
      · simp only [insertAbs, hgap, if_true]
        refine ⟨h.1, ⟨?_, ?_⟩, ⟨?_, ?_⟩, h.2.2⟩
        · intro hc; cases hc
        · intro p hp
          cases hp
          exact ⟨hx, fun _ => rfl⟩
        · intro hc; cases hc
        · intro p hp
          cases hp
          exact ⟨hsc, fun _ => rfl⟩
      · simp only [insertAbs, hgap, if_false]
        exact ⟨h.1, ih (some x.1) (fun z hz => hlt z (List.mem_cons_of_mem _ hz)) h.2⟩

theorem get_alloc_lt {m : List Slot} (v : Slot) {a : Nat} (h : a < m.length) :
    (m ++ [v])[a]? = m[a]? := by
  rw [List.getElem?_append_left h]

theorem get_alloc_eq (m : List Slot) (v : Slot) : (m ++ [v])[m.length]? = some v := by
  simp

theorem IsChain.alloc {m : List Slot} {o : Option Nat} {l : List (Nat × Slot)} (v : Slot)
    (h : IsChain m o l) : IsChain (m ++ [v]) o l :=
  h.frame (fun x hx => get_alloc_lt v (h.lt_length x hx))

theorem nodup_length_le {l : List Nat} {n : Nat} (hnd : l.Nodup) (hlt : ∀ a ∈ l, a < n) :
    l.length ≤ n := by
  have hsub : l ⊆ List.range n := fun a ha => List.mem_range.2 (hlt a ha)
  have := (List.subperm_of_subset hnd hsub).length_le
  simpa using this

theorem IsChain.length_le {m : List Slot} {o : Option Nat} {l : List (Nat × Slot)}
    (h : IsChain m o l) (hnd : (l.map Prod.fst).Nodup) : l.length ≤ m.length := by
  have := nodup_length_le hnd (n := m.length) (by
    intro a ha
    obtain ⟨x, hx, rfl⟩ := List.mem_map.1 ha
    exact h.lt_length x hx)
  simpa using this

theorem pairwise_iff_chain' (l : List (Nat × Slot)) :
    l.Pairwise (fun x y => x.2.position < y.2.position)
      ↔ l.Chain' (fun x y => x.2.position < y.2.position) := by
  haveI : IsTrans (Nat × Slot) (fun x y => x.2.position < y.2.position) :=
    ⟨fun _ _ _ h1 h2 => lt_trans h1 h2⟩
  exact List.chain'_iff_pairwise.symm

theorem Good_insertAbs {n : Nat} {l : List (Nat × Slot)} {scs : Slot}
    (hg : Good n l) (hne : l ≠ []) (hlt : ∀ x ∈ l, x.1 < n) (hcar : scs.car ≠ none) :
    Good (n + 1) (insertAbs n scs l) := by
  have hperm := insertAbs_fst n scs l hne
  have hfresh : n ∉ l.map Prod.fst := by
    intro hc
    obtain ⟨x, hx, he⟩ := List.mem_map.1 hc
    have := hlt x hx
    omega
  refine ⟨?_, ?_, ?_, ?_, ?_⟩
  · exact (List.Perm.nodup_iff hperm).2 (List.nodup_cons.2 ⟨hfresh, hg.nodup⟩)
  · intro z hz
    rcases insertAbs_mem n scs l z hz with ⟨_, h2, _⟩ | ⟨w, hw, _, h2, _⟩
    · rw [h2]; exact hcar
    · rw [h2]; exact hg.cars w hw
  · exact (pairwise_iff_chain' _).2 (insertAbs_chain' n scs l ((pairwise_iff_chain' _).1 hg.sorted))
  · intro z hz
    rcases insertAbs_mem n scs l z hz with ⟨_, _, w, hw, h3⟩ | ⟨w, hw, _, _, h3⟩
    · have := hg.pos w hw
      omega
    · rw [h3]; exact hg.pos w hw
  · apply PrevOK_insertAbs (by omega) l none (fun x hx => by have := hlt x hx; omega)
    refine PrevOK.mono (by omega) ?_ hg.prev
    intro p hp hm
    have hm' := (List.Perm.mem_iff hperm).1 hm
    rcases List.mem_cons.1 hm' with h | h
    · omega
    · exact h

theorem OccupancyCount_chain {s : Storey} {l : List (Nat × Slot)}
    (hc : IsChain s.mem s.slotList l) (hnd : (l.map Prod.fst).Nodup) :
    OccupancyCount s = some (l.length : Int) := by
  cases l with
  | nil =>
    have h : s.slotList = none := hc
    simp [OccupancyCount, h]
  | cons x rest =>
    have h : s.slotList = some x.1 := hc.1
    simp only [OccupancyCount, h]
    exact CountSelf_chain (h ▸ hc) (hc.length_le hnd)

theorem parkAddNext_chain {s : Storey} {l : List (Nat × Slot)} (car : Car)
    (hc : IsChain s.mem s.slotList l) (hnd : (l.map Prod.fst).Nodup) (hne : l ≠ []) :
    ∃ s', parkAddNext s car = some (.ok s.mem.length, s') ∧ s'.maxSlots = s.maxSlots
      ∧ s'.mem.length = s.mem.length + 1
      ∧ IsChain s'.mem s'.slotList (insertAbs s.mem.length (freshSlot car 0) l) := by
  cases l with
  | nil => exact absurd rfl hne
  | cons x rest =>
    have h : s.slotList = some x.1 := hc.1
    have hfresh : s.mem.length ∉ (x :: rest).map Prod.fst := by
      intro hm
      obtain ⟨z, hz, he⟩ := List.mem_map.1 hm
      have := hc.lt_length z hz
      omega
    have hc' : IsChain (s.mem ++ [freshSlot car 0]) (some x.1) (x :: rest) := (h ▸ hc).alloc _
    have hlen : (x :: rest).length ≤ (s.mem ++ [freshSlot car 0]).length := by
      have := hc.length_le hnd
      simp only [List.length_append, List.length_singleton]
      omega
    obtain ⟨m', r1, r2, r3, _⟩ :=
      AddNext_chain hc' hlen hnd hfresh (get_alloc_eq s.mem _) rfl
    refine ⟨{ s with mem := m' }, ?_, rfl, ?_, ?_⟩
    · simp only [parkAddNext, h, NewSlot, alloc, r1]
    · simp [r3]
    · simp only [h]
      exact r2

theorem parkBeforeHead_chain {s : Storey} {x : Nat × Slot} {rest : List (Nat × Slot)}
    (car : Car) (hc : IsChain s.mem s.slotList (x :: rest))
    (hnd : ((x :: rest).map Prod.fst).Nodup) :
    ∃ s', parkBeforeHead s car x.1 = some s' ∧ s'.maxSlots = s.maxSlots
      ∧ s'.mem.length = s.mem.length + 1
      ∧ IsChain s'.mem s'.slotList (beforeHeadAbs s.mem.length car x rest) := by
  obtain ⟨_, hx, hrest⟩ := hc
  have hxlt : x.1 < s.mem.length := by
    by_contra hcon
    rw [List.getElem?_eq_none (by omega)] at hx
    cases hx
  have hxn : x.1 ≠ s.mem.length := by omega
  have e0 : (s.mem ++ [freshSlot car 1])[s.mem.length]? = some (freshSlot car 1) :=
    get_alloc_eq _ _
  have e1 : (s.mem ++ [freshSlot car 1])[x.1]? = some x.2 := by
    rw [get_alloc_lt _ hxlt]; exact hx
  have e2 := get_set { x.2 with position := (freshSlot car 1).position + 1 } s.mem.length e1
  rw [if_neg (Ne.symm hxn), e0] at e2
  have e3 := get_set { freshSlot car 1 with nextSlot := some x.1 } x.1 e2
  rw [if_neg hxn, get_set _ _ e1, if_pos rfl] at e3
  have e4 := get_set
    { x.2 with position := (freshSlot car 1).position + 1, prevSlot := some s.mem.length }
    x.1 e3
  rw [if_pos rfl] at e4
  refine ⟨{ s with
      slotList := some s.mem.length
      mem := ((((s.mem ++ [freshSlot car 1]).set x.1
        { x.2 with position := (freshSlot car 1).position + 1 }).set s.mem.length
        { freshSlot car 1 with nextSlot := some x.1 }).set x.1
        { x.2 with position := (freshSlot car 1).position + 1,
                   prevSlot := some s.mem.length }).set x.1
        { x.2 with position := (freshSlot car 1).position + 1,
                   prevSlot := some s.mem.length } }, ?_, ?_, ?_, ?_⟩
  · have hn : (freshSlot car 1).nextSlot = none := rfl
    simp only [parkBeforeHead, NewSlot, alloc, List.length_append, List.length_singleton,
      AddNext, e0, hn, UpdatePosition, store_some _ e1, store_some _ e2, store_some _ e3,
      store_some _ e4]
  · rfl
  · simp
  · refine ⟨rfl, ?_, rfl, ?_, ?_⟩
    · rw [get_set _ _ e4, if_neg (Ne.symm hxn), get_set _ _ e3, if_neg (Ne.symm hxn),
        get_set _ _ e2, if_pos rfl]
    · rw [get_set _ _ e4, if_pos rfl]
      rfl
    · refine hrest.frame ?_
      intro z hz
      have hzx : z.1 ≠ x.1 := by
        intro e
        simp only [List.map_cons, List.nodup_cons, List.mem_map] at hnd
        exact hnd.1 ⟨z, hz, e⟩
      have hzn : z.1 ≠ s.mem.length := by
        have := hrest.lt_length z hz
        omega
      rw [get_set _ _ e4, if_neg hzx, get_set _ _ e3, if_neg hzx, get_set _ _ e2, if_neg hzn,
        get_set _ _ e1, if_neg hzx, get_alloc_lt _ (hrest.lt_length z hz)]

theorem Good_nil (n : Nat) : Good n [] := by
  refine ⟨List.nodup_nil, ?_, List.Pairwise.nil, ?_, trivial⟩
  · intro x hx; cases hx
  · intro x hx; cases hx

theorem Good_single (n : Nat) (car : Car) : Good (n + 1) [(n, freshSlot car 1)] := by
  refine ⟨by simp, ?_, by simp, ?_, ?_⟩
  · intro x hx
    rw [List.mem_singleton.1 hx]
    simp [freshSlot]
  · intro x hx
    rw [List.mem_singleton.1 hx]
    simp [freshSlot]
  · refine ⟨⟨fun _ => rfl, ?_⟩, trivial⟩
    intro p hp
    simp [freshSlot] at hp

theorem Good_beforeHeadAbs {n : Nat} {x : Nat × Slot} {rest : List (Nat × Slot)} (car : Car)
    (hg : Good n (x :: rest)) (hpos : x.2.position > 1) (hlt : ∀ z ∈ x :: rest, z.1 < n) :
    Good (n + 1) (beforeHeadAbs n car x rest) := by
  have hsorted := List.pairwise_cons.1 hg.sorted
  have hnd := hg.nodup
  simp only [List.map_cons, List.nodup_cons] at hnd
  refine ⟨?_, ?_, ?_, ?_, ?_⟩
  · simp only [beforeHeadAbs, List.map_cons, List.nodup_cons, List.mem_cons, not_or]
    refine ⟨⟨?_, ?_⟩, hnd.1, hnd.2⟩
    · have := hlt x (List.mem_cons_self _ _)
      omega
    · intro hm
      obtain ⟨z, hz, he⟩ := List.mem_map.1 hm
      have := hlt z (List.mem_cons_of_mem _ hz)
      omega
  · intro z hz
    simp only [beforeHeadAbs, List.mem_cons] at hz
    rcases hz with rfl | rfl | hz
    · simp [freshSlot]
    · exact hg.cars x (List.mem_cons_self _ _)
    · exact hg.cars z (List.mem_cons_of_mem _ hz)
  · simp only [beforeHeadAbs, List.pairwise_cons, List.mem_cons]
    refine ⟨?_, ?_, hsorted.2⟩
    · intro z hz
      rcases hz with rfl | hz
      · simp [freshSlot]
      · have := hsorted.1 z hz
        simp only [freshSlot]
        omega
    · intro z hz
      have := hsorted.1 z hz
      show (2 : Int) < z.2.position
      omega
  · intro z hz
    simp only [beforeHeadAbs, List.mem_cons] at hz
    rcases hz with rfl | rfl | hz
    · simp [freshSlot]
    · simp
    · exact hg.pos z (List.mem_cons_of_mem _ hz)
  · refine ⟨⟨fun _ => rfl, ?_⟩, ⟨?_, ?_⟩, ?_⟩
    · intro p hp
      simp [freshSlot] at hp
    · intro hcon
      simp at hcon
    · intro p hp
      simp only [Option.some.injEq] at hp
      subst hp
      exact ⟨by omega, fun _ => rfl⟩
    · refine PrevOK.mono (by omega) ?_ hg.prev.2
      intro p hp hm
      simp only [beforeHeadAbs, List.map_cons, List.mem_cons] at hm ⊢
      rcases hm with h | h
      · omega
      · exact h

theorem Park_full {s : Storey} {l : List (Nat × Slot)} (hc : IsChain s.mem s.slotList l)
    (hnd : (l.map Prod.fst).Nodup) (numberPlate color : String)
    (hfull : s.maxSlots ≤ (l.length : Int)) :
    Park s numberPlate color = some (.error .ErrMaxSlotReached, s) := by
  simp only [Park, OccupancyCount_chain hc hnd]
  rw [if_pos hfull]

theorem Park_chain {s : Storey} {l : List (Nat × Slot)} (hc : IsChain s.mem s.slotList l)
    (hg : Good s.mem.length l) (numberPlate color : String)
    (hroom : (l.length : Int) < s.maxSlots) :
    ∃ s', Park s numberPlate color
        = some (.ok (parkAbs s.mem.length (NewCar numberPlate color) l).1, s')
      ∧ s'.maxSlots = s.maxSlots
      ∧ IsChain s'.mem s'.slotList (parkAbs s.mem.length (NewCar numberPlate color) l).2
      ∧ Good s'.mem.length (parkAbs s.mem.length (NewCar numberPlate color) l).2 := by
  have hnf : ¬ ((l.length : Int) ≥ s.maxSlots) := by omega
  cases l with
  | nil =>
    refine ⟨{ s with slotList := some s.mem.length,
                     mem := s.mem ++ [freshSlot (NewCar numberPlate color) 1] }, ?_, rfl, ?_, ?_⟩
    · simp only [Park, OccupancyCount_chain hc hg.nodup, if_neg hnf]
      simp [NewSlot, alloc, parkAbs]
    · exact ⟨rfl, get_alloc_eq _ _, rfl⟩
    · simp only [parkAbs, List.length_append, List.length_singleton]
      exact Good_single _ _
  | cons x rest =>
    have hhd : s.slotList = some x.1 := hc.1
    have hx : s.mem[x.1]? = some x.2 := hc.2.1
    have hcnt : ¬ (((x :: rest).length : Int) = 0) := by
      simp only [List.length_cons]; push_cast; omega
    by_cases hpos : x.2.position > 1
    · obtain ⟨s1, p1, p2, p3, p4⟩ := parkBeforeHead_chain (NewCar numberPlate color) hc hg.nodup
      have hg1 := Good_beforeHeadAbs (NewCar numberPlate color) hg hpos
        (fun z hz => hc.lt_length z hz)
      obtain ⟨s2, q1, q2, q3, q4⟩ := parkAddNext_chain (NewCar numberPlate color) p4 hg1.nodup
        (by simp [beforeHeadAbs])
      refine ⟨s2, ?_, by rw [q2, p2], ?_, ?_⟩
      · simp only [Park, OccupancyCount_chain hc hg.nodup, if_neg hnf, if_neg hcnt, hhd, hx,
          Slot.Position, if_pos hpos, p1, q1, parkAbs, p3]
      · simp only [parkAbs, if_pos hpos]
        rw [← p3]; exact q4
      · simp only [parkAbs, if_pos hpos]
        rw [q3, p3]
        refine Good_insertAbs hg1 (by simp [beforeHeadAbs]) ?_ (by simp [freshSlot])
        intro z hz
        have := p4.lt_length z hz
        omega
    · obtain ⟨s2, q1, q2, q3, q4⟩ := parkAddNext_chain (NewCar numberPlate color) hc hg.nodup
        (by simp)
      refine ⟨s2, ?_, q2, ?_, ?_⟩
      · simp only [Park, OccupancyCount_chain hc hg.nodup, if_neg hnf, if_neg hcnt, hhd, hx,
          Slot.Position, if_neg hpos, q1, parkAbs]
      · simp only [parkAbs, if_neg hpos]
        exact q4
      · simp only [parkAbs, if_neg hpos]
        rw [q3]
        exact Good_insertAbs hg (by simp) (fun z hz => hc.lt_length z hz) (by simp [freshSlot])

theorem firstAddr_ok {p : Nat × Slot → Bool} {l : List (Nat × Slot)} {a : Nat}
    (h : firstAddr p l = .ok a) :
    ∃ l1 x l2, l = l1 ++ x :: l2 ∧ x.1 = a ∧ p x = true ∧ ∀ z ∈ l1, p z = false := by
  induction l with
  | nil => simp [firstAddr] at h
  | cons y l ih =>
    rw [firstAddr_cons] at h
    by_cases hy : p y = true
    · rw [if_pos hy] at h
      cases h
      exact ⟨[], y, l, rfl, rfl, hy, fun z hz => by cases hz⟩
    · rw [if_neg hy] at h
      obtain ⟨l1, x, l2, e, h1, h2, h3⟩ := ih h
      refine ⟨y :: l1, x, l2, by rw [e]; rfl, h1, h2, ?_⟩
      intro z hz
      rcases List.mem_cons.1 hz with rfl | hz
      · simpa using hy
      · exact h3 z hz

theorem firstAddr_error {p : Nat × Slot → Bool} {l : List (Nat × Slot)} {e : Error}
    (h : firstAddr p l = .error e) : e = .ErrCarNotFound ∧ ∀ z ∈ l, p z = false := by
  induction l with
  | nil =>
    simp only [firstAddr, List.find?_nil] at h
    cases h
    exact ⟨rfl, fun z hz => by cases hz⟩
  | cons y l ih =>
    rw [firstAddr_cons] at h
    by_cases hy : p y = true
    · rw [if_pos hy] at h
      cases h
    · rw [if_neg hy] at h
      obtain ⟨h1, h2⟩ := ih h
      refine ⟨h1, ?_⟩
      intro z hz
      rcases List.mem_cons.1 hz with rfl | hz
      · simpa using hy
      · exact h2 z hz

theorem firstAddr_none {p : Nat × Slot → Bool} {l : List (Nat × Slot)}
    (h : ∀ z ∈ l, p z = false) : firstAddr p l = .error .ErrCarNotFound := by
  induction l with
  | nil => rfl
  | cons y l ih =>
    rw [firstAddr_cons, if_neg (by simp [h y (List.mem_cons_self _ _)])]
    exact ih (fun z hz => h z (List.mem_cons_of_mem _ hz))

theorem firstAddr_split {p : Nat × Slot → Bool} {l1 l2 : List (Nat × Slot)} {x : Nat × Slot}
    (hx : p x = true) (h1 : ∀ z ∈ l1, p z = false) :
    firstAddr p (l1 ++ x :: l2) = .ok x.1 := by
  induction l1 with
  | nil => rw [List.nil_append, firstAddr_cons, if_pos hx]
  | cons y l ih =>
    rw [List.cons_append, firstAddr_cons, if_neg (by simp [h1 y (List.mem_cons_self _ _)])]
    exact ih (fun z hz => h1 z (List.mem_cons_of_mem _ hz))

theorem IsChain.suffix {m : List Slot} {x : Nat × Slot} {l2 : List (Nat × Slot)} :
    ∀ {l1 : List (Nat × Slot)} {o : Option Nat}, IsChain m o (l1 ++ x :: l2) →
      m[x.1]? = some x.2 ∧ IsChain m x.2.nextSlot l2 := by
  intro l1
  induction l1 with
  | nil => intro o h; exact ⟨h.2.1, h.2.2⟩
  | cons y l ih => intro o h; exact ih h.2.2

theorem IsChain.relink {m : List Slot} {w x : Nat × Slot} {l2 : List (Nat × Slot)} :
    ∀ {l0 : List (Nat × Slot)} {o : Option Nat}, IsChain m o (l0 ++ w :: x :: l2) →
      ((l0 ++ w :: x :: l2).map Prod.fst).Nodup →
      IsChain (m.set w.1 { w.2 with nextSlot := x.2.nextSlot }) o
        (l0 ++ (w.1, { w.2 with nextSlot := x.2.nextSlot }) :: l2) := by
  intro l0
  induction l0 with
  | nil =>
    intro o h hnd
    obtain ⟨h1, h2, _, _, h5⟩ := h
    refine ⟨h1, ?_, ?_⟩
    · rw [get_set _ _ h2, if_pos rfl]
    · refine h5.frame ?_
      intro z hz
      have hzw : z.1 ≠ w.1 := by
        intro e
        simp only [List.nil_append, List.map_cons, List.nodup_cons, List.mem_cons,
          List.mem_map] at hnd
        exact hnd.1 (Or.inr ⟨z, hz, e⟩)
      rw [get_set _ _ h2, if_neg hzw]
  | cons y l ih =>
    intro o h hnd
    obtain ⟨h1, h2, h3⟩ := h
    have hw : m[w.1]? = some w.2 := (IsChain.suffix h3).1
    have hyw : y.1 ≠ w.1 := by
      intro e
      simp only [List.cons_append, List.map_cons, List.nodup_cons, List.map_append,
        List.mem_append, List.mem_cons] at hnd
      exact hnd.1 (Or.inr (Or.inl e))
    have hnd' : ((l ++ w :: x :: l2).map Prod.fst).Nodup := by
      simp only [List.cons_append, List.map_cons, List.nodup_cons] at hnd
      exact hnd.2
    refine ⟨h1, ?_, ih h3 hnd'⟩
    rw [get_set _ _ hw, if_neg hyw]
    exact h2

theorem PrevLink.weaken {n : Nat} {all all' : List Nat} {pred : Option Nat} {s : Slot}
    (hall : ∀ p, p ∈ all' → p ∈ all) (h : PrevLink n all pred s) :
    PrevLink n all' pred s :=
  ⟨h.1, fun p hp => ⟨(h.2 p hp).1, fun hm => (h.2 p hp).2 (hall p hm)⟩⟩

theorem PrevOK.drop {n : Nat} {all all' : List Nat} {a : Nat} (pred : Option Nat)
    (ha : a ∉ all') (hall : ∀ p, p ∈ all' → p ∈ all) :
    ∀ {l : List (Nat × Slot)}, PrevOK n all (some a) l → PrevOK n all' pred l := by
  intro l h
  cases l with
  | nil => trivial
  | cons y rest =>
    refine ⟨⟨?_, ?_⟩, PrevOK.mono (le_refl n) (fun p _ hp => hall p hp) h.2⟩
    · intro hy
      have := h.1.1 hy
      cases this
    · intro p hp
      refine ⟨(h.1.2 p hp).1, ?_⟩
      intro hm
      have := (h.1.2 p hp).2 (hall p hm)
      cases this
      exact absurd hm ha

theorem PrevOK.remove {n : Nat} {all all' : List Nat} {w x : Nat × Slot}
    {l2 : List (Nat × Slot)} {v : Slot} (hv : v.prevSlot = w.2.prevSlot)
    (hx : x.1 ∉ all') (hall : ∀ p, p ∈ all' → p ∈ all) :
    ∀ {l0 : List (Nat × Slot)} {pred : Option Nat}, PrevOK n all pred (l0 ++ w :: x :: l2) →
      PrevOK n all' pred (l0 ++ (w.1, v) :: l2) := by
  intro l0
  induction l0 with
  | nil =>
    intro pred h
    refine ⟨?_, PrevOK.drop (some w.1) hx hall h.2.2⟩
    have := PrevLink.weaken hall h.1
    exact ⟨fun e => this.1 (hv ▸ e), fun p hp => this.2 p (hv ▸ hp)⟩
  | cons y l ih =>
    intro pred h
    exact ⟨PrevLink.weaken hall h.1, ih h.2⟩

theorem PrevOK.at_head {n : Nat} {all : List Nat} {pred : Option Nat} {x : Nat × Slot}
    {l2 : List (Nat × Slot)} (h : PrevOK n all pred (x :: l2)) : PrevLink n all pred x.2 :=
  h.1

theorem PrevOK.at_mid {n : Nat} {all : List Nat} {w x : Nat × Slot} {l2 : List (Nat × Slot)} :
    ∀ {l0 : List (Nat × Slot)} {pred : Option Nat}, PrevOK n all pred (l0 ++ w :: x :: l2) →
      PrevLink n all (some w.1) x.2 := by
  intro l0
  induction l0 with
  | nil => intro pred h; exact h.2.1
  | cons y l ih => intro pred h; exact ih h.2

theorem Good.of_sub {n : Nat} {l l' : List (Nat × Slot)} (hg : Good n l)
    (hfst : (l'.map Prod.fst).Sublist (l.map Prod.fst))
    (hcar : ∀ z ∈ l', z.2.car ≠ none)
    (hpos : (l'.map (fun z => z.2.position)).Sublist (l.map (fun z => z.2.position)))
    (hprev : PrevOK n (l'.map Prod.fst) none l') : Good n l' := by
  refine ⟨hg.nodup.sublist hfst, hcar, ?_, ?_, hprev⟩
  · have h1 : (l.map (fun z => z.2.position)).Pairwise (· < ·) :=
      (List.pairwise_map (f := fun z : Nat × Slot => z.2.position)).2 hg.sorted
    exact (List.pairwise_map (f := fun z : Nat × Slot => z.2.position)).1 (h1.sublist hpos)
  · intro z hz
    have hm : z.2.position ∈ l.map (fun z => z.2.position) :=
      hpos.subset (List.mem_map.2 ⟨z, hz, rfl⟩)
    obtain ⟨y, hy, he⟩ := List.mem_map.1 hm
    have := hg.pos y hy
    have he' : y.2.position = z.2.position := he
    omega

theorem unlink_chain {s : Storey} {l1 l2 : List (Nat × Slot)} {x : Nat × Slot}
    (hc : IsChain s.mem s.slotList (l1 ++ x :: l2))
    (hg : Good s.mem.length (l1 ++ x :: l2)) :
    ∃ s' l', unlink s x.1 = some (.ok x.1, s') ∧ s'.maxSlots = s.maxSlots
      ∧ s'.mem.length = s.mem.length ∧ s'.mem[x.1]? = some x.2
      ∧ IsChain s'.mem s'.slotList l' ∧ Good s'.mem.length l'
      ∧ ((x.2.prevSlot = none ∧ l1 = [] ∧ l' = l2) ∨
         (∃ l0 w, l1 = l0 ++ [w] ∧ x.2.prevSlot = some w.1
            ∧ l' = l0 ++ (w.1, { w.2 with nextSlot := x.2.nextSlot }) :: l2) ∨
         (∃ p, x.2.prevSlot = some p ∧ p ∉ (l1 ++ x :: l2).map Prod.fst
            ∧ l' = l1 ++ x :: l2)) := by
  have hx : s.mem[x.1]? = some x.2 := (IsChain.suffix hc).1
  have hl2 : IsChain s.mem x.2.nextSlot l2 := (IsChain.suffix hc).2
  have hnd := hg.nodup
  -- the back reference of `x` against its real predecessor
  have hlink : ∃ pred, PrevLink s.mem.length ((l1 ++ x :: l2).map Prod.fst) pred x.2 ∧
      ((pred = none ∧ l1 = []) ∨ ∃ l0 w, l1 = l0 ++ [w] ∧ pred = some w.1) := by
    rcases List.eq_nil_or_concat l1 with h | ⟨l0, w, h⟩
    · subst h
      exact ⟨none, hg.prev.at_head, Or.inl ⟨rfl, rfl⟩⟩
    · rw [List.concat_eq_append] at h
      subst h
      refine ⟨some w.1, ?_, Or.inr ⟨l0, w, rfl, rfl⟩⟩
      have hp := hg.prev
      have e : l0 ++ [w] ++ x :: l2 = l0 ++ w :: x :: l2 := by simp
      rw [e] at hp ⊢
      exact hp.at_mid
  obtain ⟨pred, hpl, hpred⟩ := hlink
  cases hprev : x.2.prevSlot with
  | none =>
    have hpn := hpl.1 hprev
    rcases hpred with ⟨_, h1⟩ | ⟨l0, w, _, h2⟩
    · subst h1
      refine ⟨{ s with slotList := x.2.nextSlot }, l2, ?_, rfl, rfl, hx, hl2, ?_,
        Or.inl ⟨rfl, rfl, rfl⟩⟩
      · simp only [unlink, SlotLeave, hx, hprev]
      · show Good s.mem.length l2
        rw [List.nil_append] at hg hnd
        refine hg.of_sub (List.Sublist.map _ (List.sublist_cons_self _ _)) ?_
          (List.Sublist.map _ (List.sublist_cons_self _ _)) ?_
        · intro z hz; exact hg.cars z (List.mem_cons_of_mem _ hz)
        · refine PrevOK.drop none ?_ ?_ hg.prev.2
          · simp only [List.map_cons, List.nodup_cons] at hnd
            exact hnd.1
          · intro p hp
            simp only [List.map_cons, List.mem_cons]
            exact Or.inr hp
    · rw [hpn] at h2; cases h2
  | some p =>
    obtain ⟨hplt, hpmem⟩ := hpl.2 p hprev
    obtain ⟨ps, hps⟩ : ∃ ps, s.mem[p]? = some ps :=
      ⟨s.mem[p], List.getElem?_eq_getElem hplt⟩
    by_cases hin : p ∈ (l1 ++ x :: l2).map Prod.fst
    · have hpp := hpmem hin
      rcases hpred with ⟨h1, _⟩ | ⟨l0, w, h1, h2⟩
      · rw [h1] at hpp; cases hpp
      · subst h1
        rw [h2] at hpp
        have hwp : w.1 = p := by injection hpp
        subst hwp
        rw [List.append_assoc, List.singleton_append] at hc hg hnd
        have hw : s.mem[w.1]? = some w.2 := (IsChain.suffix hc).1
        rw [hw] at hps
        cases hps
        have hxw : x.1 ≠ w.1 := by
          intro e
          have := hnd
          simp only [List.map_append, List.map_cons, List.nodup_append, List.nodup_cons,
            List.mem_cons, not_or] at this
          exact this.2.1.1.1 e.symm
        have hx' : (s.mem.set w.1 { w.2 with nextSlot := x.2.nextSlot })[x.1]? = some x.2 := by
          rw [get_set _ _ hw, if_neg hxw]; exact hx
        refine ⟨{ s with mem := s.mem.set w.1 { w.2 with nextSlot := x.2.nextSlot } },
          l0 ++ (w.1, { w.2 with nextSlot := x.2.nextSlot }) :: l2, ?_, rfl, ?_, hx',
          hc.relink hnd, ?_, Or.inr (Or.inl ⟨l0, w, ?_, rfl, rfl⟩)⟩
        · simp only [unlink, SlotLeave, hx, hprev, store_some _ hw, hx']
        · simp
        · show Good (s.mem.set w.1 _).length _
          rw [List.length_set]
          have hsub1 : (List.map Prod.fst (l0 ++ (w.1, { w.2 with nextSlot := x.2.nextSlot })
              :: l2)).Sublist (List.map Prod.fst (l0 ++ w :: x :: l2)) := by
            simp only [List.map_append, List.map_cons]
            exact List.Sublist.append_left
              (List.Sublist.cons₂ _ (List.sublist_cons_self _ _)) _
          have hsub2 : (List.map (fun z : Nat × Slot => z.2.position)
              (l0 ++ (w.1, { w.2 with nextSlot := x.2.nextSlot }) :: l2)).Sublist
              (List.map (fun z : Nat × Slot => z.2.position) (l0 ++ w :: x :: l2)) := by
            simp only [List.map_append, List.map_cons]
            exact List.Sublist.append_left
              (List.Sublist.cons₂ _ (List.sublist_cons_self _ _)) _
          refine hg.of_sub hsub1 ?_ hsub2 ?_
          · intro z hz
            simp only [List.mem_append, List.mem_cons] at hz
            rcases hz with hz | rfl | hz
            · exact hg.cars z (by simp [hz])
            · exact hg.cars w (by simp)
            · exact hg.cars z (by simp [hz])
          · refine PrevOK.remove (v := { w.2 with nextSlot := x.2.nextSlot }) rfl ?_
              (fun q hq => hsub1.subset hq) hg.prev
            intro hm
            have := hnd
            simp only [List.map_append, List.map_cons, List.nodup_append, List.nodup_cons,
              List.mem_cons, List.mem_append, not_or] at this hm
            rcases hm with hm | hm | hm
            · exact this.2.2 hm (by simp)
            · exact this.2.1.1.1 hm.symm
            · exact this.2.1.2.1 hm
        · simp
    · have hxp : x.1 ≠ p := by
        intro e; apply hin; rw [← e]; simp
      have hx' : (s.mem.set p { ps with nextSlot := x.2.nextSlot })[x.1]? = some x.2 := by
        rw [get_set _ _ hps, if_neg hxp]; exact hx
      refine ⟨{ s with mem := s.mem.set p { ps with nextSlot := x.2.nextSlot } },
        l1 ++ x :: l2, ?_, rfl, ?_, hx', ?_, ?_, Or.inr (Or.inr ⟨p, rfl, hin, rfl⟩)⟩
      · simp only [unlink, SlotLeave, hx, hprev, store_some _ hps, hx']
      · simp
      · refine hc.frame ?_
        intro z hz
        have hzp : z.1 ≠ p := by
          intro e; apply hin; rw [← e]; exact List.mem_map.2 ⟨z, hz, rfl⟩
        show (s.mem.set p _)[z.1]? = _
        rw [get_set _ _ hps, if_neg hzp]
      · show Good (s.mem.set p _).length _
        rw [List.length_set]
        exact hg

theorem Reachable.afterPark {s : Storey} (h : Reachable s) (numberPlate color : String) :
    Reachable (afterPark s numberPlate color) := by
  unfold ParkingLot.afterPark
  cases hp : Park s numberPlate color with
  | none => exact h
  | some r => exact Reachable.park numberPlate color h hp

theorem Reachable.afterLeaveByPosition {s : Storey} (h : Reachable s) (position : Int) :
    Reachable (afterLeaveByPosition s position) := by
  unfold ParkingLot.afterLeaveByPosition
  cases hp : LeaveByPosition s position with
  | none => exact h
  | some r => exact Reachable.leaveByPosition position h hp

theorem Reachable.afterLeave {s : Storey} (h : Reachable s) (numberPlate : String) :
    Reachable (afterLeave s numberPlate) := by
  unfold ParkingLot.afterLeave
  cases hp : Leave s numberPlate with
  | none => exact h
  | some r => exact Reachable.leave numberPlate h hp

theorem IsChain.head_none {m : List Slot} {l : List (Nat × Slot)} (h : IsChain m none l) :
    l = [] := by
  cases l with
  | nil => rfl
  | cons x l => cases h.1

theorem IsChain.head_some {m : List Slot} {a : Nat} {l : List (Nat × Slot)}
    (h : IsChain m (some a) l) : l ≠ [] := by
  intro e; subst e; cases h

theorem IsChain.slotList_eq_none_iff {s : Storey} {l : List (Nat × Slot)}
    (h : IsChain s.mem s.slotList l) : s.slotList = none ↔ l = [] := by
  constructor
  · intro e; rw [e] at h; exact h.head_none
  · intro e; subst e; exact h

theorem Leave_chain {s : Storey} {l : List (Nat × Slot)} (hc : IsChain s.mem s.slotList l)
    (hg : Good s.mem.length l) (numberPlate : String) :
    Leave s numberPlate =
      if l = [] then some (.error .ErrNoCarsParked, s)
      else match firstAddr (fun x => decide (x.2.RegistrationNumber = numberPlate)) l with
        | .ok a => unlink s a
        | .error _ => some (.error .ErrCarNotFound, s) := by
  cases l with
  | nil =>
    have h : s.slotList = none := hc
    simp [Leave, h]
  | cons x rest =>
    have h : s.slotList = some x.1 := hc.1
    rw [if_neg (by simp)]
    simp only [Leave, h, FindCar_chain (h ▸ hc) (hc.length_le hg.nodup) hg.cars]
    cases firstAddr (fun x => decide (x.2.RegistrationNumber = numberPlate)) (x :: rest) <;> rfl

theorem LeaveByPosition_chain {s : Storey} {l : List (Nat × Slot)}
    (hc : IsChain s.mem s.slotList l) (hg : Good s.mem.length l) (position : Int) :
    LeaveByPosition s position =
      if l = [] then some (.error .ErrNoCarsParked, s)
      else match firstAddr (fun x => decide (x.2.position = position)) l with
        | .ok a => unlink s a
        | .error _ => some (.error .ErrCarNotFound, s) := by
  cases l with
  | nil =>
    have h : s.slotList = none := hc
    simp [LeaveByPosition, h]
  | cons x rest =>
    have h : s.slotList = some x.1 := hc.1
    rw [if_neg (by simp)]
    simp only [LeaveByPosition, h, FindPosition_chain (h ▸ hc) (hc.length_le hg.nodup)]
    cases firstAddr (fun x => decide (x.2.position = position)) (x :: rest) <;> rfl

theorem Inv.unlink_first {s s' : Storey} {l : List (Nat × Slot)} {p : Nat × Slot → Bool}
    {a : Nat} {r : Except Error Nat}
    (hc : IsChain s.mem s.slotList l) (hg : Good s.mem.length l)
    (hf : firstAddr p l = .ok a) (hu : unlink s a = some (r, s')) : Inv s' := by
  obtain ⟨l1, x, l2, e, hx, _, _⟩ := firstAddr_ok hf
  subst e; subst hx
  obtain ⟨s1, l', h1, _, _, _, h5, h6, _⟩ := unlink_chain hc hg
  rw [h1] at hu
  cases hu
  exact ⟨l', h5, h6⟩

theorem Inv.NewStorey (n : Int) : Inv (NewStorey n) :=
  ⟨[], rfl, Good_nil _⟩

theorem Inv.Park {s s' : Storey} {r : Except Error Nat} {numberPlate color : String}
    (hi : Inv s) (h : Park s numberPlate color = some (r, s')) : Inv s' := by
  obtain ⟨l, hc, hg⟩ := hi
  by_cases hfull : s.maxSlots ≤ (l.length : Int)
  · rw [Park_full hc hg.nodup numberPlate color hfull] at h
    cases h
    exact ⟨l, hc, hg⟩
  · obtain ⟨s1, h1, _, h3, h4⟩ := Park_chain hc hg numberPlate color (by omega)
    rw [h1] at h
    cases h
    exact ⟨_, h3, h4⟩

theorem Inv.Leave {s s' : Storey} {r : Except Error Nat} {numberPlate : String}
    (hi : Inv s) (h : Leave s numberPlate = some (r, s')) : Inv s' := by
  obtain ⟨l, hc, hg⟩ := hi
  rw [Leave_chain hc hg] at h
  by_cases hl : l = []
  · rw [if_pos hl] at h
    cases h
    exact ⟨l, hc, hg⟩
  · rw [if_neg hl] at h
    cases hf : firstAddr (fun x => decide (x.2.RegistrationNumber = numberPlate)) l with
    | error e =>
      rw [hf] at h
      cases h
      exact ⟨l, hc, hg⟩
    | ok a =>
      rw [hf] at h
      exact Inv.unlink_first hc hg hf h

theorem Inv.LeaveByPosition {s s' : Storey} {r : Except Error Nat} {position : Int}
    (hi : Inv s) (h : LeaveByPosition s position = some (r, s')) : Inv s' := by
  obtain ⟨l, hc, hg⟩ := hi
  rw [LeaveByPosition_chain hc hg] at h
  by_cases hl : l = []
  · rw [if_pos hl] at h
    cases h
    exact ⟨l, hc, hg⟩
  · rw [if_neg hl] at h
    cases hf : firstAddr (fun x => decide (x.2.position = position)) l with
    | error e =>
      rw [hf] at h
      cases h
      exact ⟨l, hc, hg⟩
    | ok a =>
      rw [hf] at h
      exact Inv.unlink_first hc hg hf h

theorem Reachable.inv {s : Storey} (h : Reachable s) : Inv s := by
  induction h with
  | init n => exact Inv.NewStorey n
  | park _ _ _ hp ih => exact ih.Park hp
  | leave _ _ hp ih => exact ih.Leave hp
  | leaveByPosition _ _ hp ih => exact ih.LeaveByPosition hp

theorem AllSlots_chain {s : Storey} {l : List (Nat × Slot)}
    (hc : IsChain s.mem s.slotList l) (hnd : (l.map Prod.fst).Nodup) :
    AllSlots s = some (if l = [] then .error .ErrNoCarsParked else .ok (l.map Prod.snd)) := by
  cases l with
  | nil =>
    have h : s.slotList = none := hc
    simp [AllSlots, h]
  | cons x rest =>
    have h : s.slotList = some x.1 := hc.1
    rw [if_neg (by simp)]
    simp only [AllSlots, h, ListSelf_chain (h ▸ hc) (hc.length_le hnd)]

theorem FindByRegistrationNumber_chain {s : Storey} {l : List (Nat × Slot)}
    (hc : IsChain s.mem s.slotList l) (hg : Good s.mem.length l) (numberPlate : String) :
    FindByRegistrationNumber s numberPlate =
      some (if l = [] then .error .ErrNoCarsParked
        else firstAddr (fun x => decide (x.2.RegistrationNumber = numberPlate)) l) := by
  cases l with
  | nil =>
    have h : s.slotList = none := hc
    simp [FindByRegistrationNumber, h]
  | cons x rest =>
    have h : s.slotList = some x.1 := hc.1
    rw [if_neg (by simp)]
    simp only [FindByRegistrationNumber, h,
      FindCar_chain (h ▸ hc) (hc.length_le hg.nodup) hg.cars]

theorem FindAllByColor_chain {s : Storey} {l : List (Nat × Slot)}
    (hc : IsChain s.mem s.slotList l) (hg : Good s.mem.length l) (color : String) :
    FindAllByColor s color =
      some (if l = [] then .error .ErrNoCarsParked
        else if (l.map Prod.snd).filter (fun x => decide (x.Color = color)) = []
          then .error .ErrCarWithColorNotFound
          else .ok ((l.map Prod.snd).filter (fun x => decide (x.Color = color)))) := by
  have hfm : (l.map Prod.snd).filter (fun x => decide (x.Color = color))
      = (l.filter (fun x => decide (x.2.Color = color))).map Prod.snd := by
    rw [List.filter_map]; rfl
  cases l with
  | nil =>
    have h : s.slotList = none := hc
    simp [FindAllByColor, h]
  | cons x rest =>
    have h : s.slotList = some x.1 := hc.1
    rw [if_neg (by simp), hfm]
    simp only [FindAllByColor, h, FindColor_chain (h ▸ hc) (hc.length_le hg.nodup) hg.cars,
      List.length_map, List.length_eq_zero, List.map_eq_nil_iff]
    by_cases he : List.filter (fun x => decide (x.2.Color = color)) (x :: rest) = []
    · rw [if_pos he, if_pos he]
    · rw [if_neg he, if_neg he]
      rw [derefAll_cells (fun z hz => hc.mem_get z (List.mem_of_mem_filter hz))]

theorem insertAbs_split (sc : Nat) (scs : Slot) :
    ∀ (l : List (Nat × Slot)), l ≠ [] →
      ∃ l0 w v l2, insertAbs sc scs l = l0 ++ w :: (sc, v) :: l2 ∧ v.prevSlot = some w.1 ∧
        v.car = scs.car ∧ ∀ z ∈ l0 ++ w :: l2, ∃ z0 ∈ l, z.1 = z0.1 ∧ z.2.car = z0.2.car := by
  intro l
  induction l with
  | nil => intro h; exact absurd rfl h
  | cons x l ih =>
    intro _
    cases l with
    | nil =>
      refine ⟨[], _, _, [], rfl, rfl, rfl, ?_⟩
      intro z hz
      simp only [List.nil_append, List.mem_singleton] at hz
      subst hz
      exact ⟨x, List.mem_cons_self _ _, rfl, rfl⟩
    | cons y rest =>
      by_cases hgap : y.2.position > x.2.position + 1
      · refine ⟨[], (x.1, { x.2 with nextSlot := some sc }),
          { scs with position := x.2.position + 1, prevSlot := some x.1, nextSlot := some y.1 },
          (y.1, { y.2 with prevSlot := some sc }) :: rest, ?_, rfl, rfl, ?_⟩
        · simp only [insertAbs, hgap, if_true, List.nil_append]
        · intro z hz
          simp only [List.nil_append, List.mem_cons] at hz
          rcases hz with rfl | rfl | hz
          · exact ⟨x, List.mem_cons_self _ _, rfl, rfl⟩
          · exact ⟨y, by simp, rfl, rfl⟩
          · exact ⟨z, by simp [hz], rfl, rfl⟩
      · obtain ⟨l0, w, v, l2, h1, h2, h3, h4⟩ := ih (by simp)
        refine ⟨x :: l0, w, v, l2, ?_, h2, h3, ?_⟩
        · simp only [insertAbs, hgap, if_false, h1, List.cons_append]
        · intro z hz
          rcases List.mem_cons.1 hz with rfl | hz
          · exact ⟨z, List.mem_cons_self _ _, rfl, rfl⟩
          · obtain ⟨z0, hz0, h⟩ := h4 z hz
            exact ⟨z0, List.mem_cons_of_mem _ hz0, h⟩

theorem registrationNumber_congr {a b : Slot} (h : a.car = b.car) :
    a.RegistrationNumber = b.RegistrationNumber := by
  simp [Slot.RegistrationNumber, h]

theorem Reachable.twoParked : Reachable twoParked :=
  ((Reachable.init 2).afterPark "A" "red").afterPark "B" "blue"

theorem Reachable.headFreed : Reachable headFreed :=
  Reachable.twoParked.afterLeaveByPosition 1

theorem Reachable.threeColors : Reachable threeColors :=
  (((Reachable.init 3).afterPark "P1" "red").afterPark "P2" "blue").afterPark "P3" "red"

theorem Reachable.gapped : Reachable gapped :=
  Reachable.threeColors.afterLeaveByPosition 2

theorem Reachable.oneParked : Reachable oneParked :=
  (Reachable.init 2).afterPark "A" "red"

theorem Reachable.threeParked : Reachable threeParked :=
  (((Reachable.init 3).afterPark "A" "red").afterPark "B" "blue").afterPark "C" "grey"

theorem Reachable.onlyThird : Reachable onlyThird :=
  (Reachable.threeParked.afterLeaveByPosition 2).afterLeaveByPosition 1

theorem insertAbs_triples (sc : Nat) (scs : Slot) :
    ∀ (rest : List (Nat × Slot)) (x : Nat × Slot),
      (x :: rest).Pairwise (fun a b => a.2.position < b.2.position) →
      ∃ t1 t2 q v,
        (x :: rest).map (fun z => z.2.triple) = t1 ++ t2 ∧
        (insertAbs sc scs (x :: rest)).map (fun z => z.2.triple)
          = t1 ++ (q, scs.RegistrationNumber, scs.Color) :: t2 ∧
        (sc, v) ∈ insertAbs sc scs (x :: rest) ∧ v.position = q ∧ v.car = scs.car ∧
        x.2.position < q ∧
        (∀ p, x.2.position ≤ p → p < q → p ∈ t1.map Prod.fst) ∧
        (∀ t ∈ t1, t.1 < q) ∧ (∀ t ∈ t2, q < t.1) := by
  intro rest
  induction rest with
  | nil =>
    intro x _
    refine ⟨[x.2.triple], [], x.2.position + 1,
      { scs with position := x.2.position + 1, prevSlot := some x.1 }, rfl, rfl, ?_, rfl, rfl,
      by omega, ?_, ?_, ?_⟩
    · simp [insertAbs]
    · intro p h1 h2
      have : p = x.2.position := by omega
      simp [this, Slot.triple, Slot.Position]
    · intro t ht
      rw [List.mem_singleton.1 ht]
      simp [Slot.triple, Slot.Position]
    · intro t ht; cases ht
  | cons y r ih =>
    intro x hpw
    have hxy := List.pairwise_cons.1 hpw
    by_cases hgap : y.2.position > x.2.position + 1
    · refine ⟨[x.2.triple], (y :: r).map (fun z => z.2.triple), x.2.position + 1,
        { scs with position := x.2.position + 1, prevSlot := some x.1, nextSlot := some y.1 },
        rfl, ?_, ?_, rfl, rfl, by omega, ?_, ?_, ?_⟩
      · simp only [insertAbs, hgap, if_true]
        rfl
      · simp [insertAbs, hgap]
      · intro p h1 h2
        have : p = x.2.position := by omega
        simp [this, Slot.triple, Slot.Position]
      · intro t ht
        rw [List.mem_singleton.1 ht]
        simp [Slot.triple, Slot.Position]
      · intro t ht
        obtain ⟨z, hz, rfl⟩ := List.mem_map.1 ht
        show x.2.position + 1 < z.2.position
        rcases List.mem_cons.1 hz with rfl | hz
        · exact hgap
        · have := (List.pairwise_cons.1 hxy.2).1 z hz
          omega
    · have hy : y.2.position = x.2.position + 1 := by
        have := hxy.1 y (List.mem_cons_self _ _)
        omega
      obtain ⟨t1, t2, q, v, h1, h2, h3, h4, h5, h6, h7, h8, h9⟩ := ih y hxy.2
      refine ⟨x.2.triple :: t1, t2, q, v, ?_, ?_, ?_, h4, h5, by omega, ?_, ?_, h9⟩
      · rw [List.map_cons, h1]; rfl
      · simp only [insertAbs, hgap, if_false, List.map_cons, h2]
        rfl
      · simp only [insertAbs, hgap, if_false]
        exact List.mem_cons_of_mem _ h3
      · intro p hp1 hp2
        by_cases hp : p = x.2.position
        · simp [hp, Slot.triple, Slot.Position]
        · have := h7 p (by omega) hp2
          simp only [List.map_cons, List.mem_cons]
          exact Or.inr this
      · intro t ht
        rcases List.mem_cons.1 ht with rfl | ht
        · show x.2.position < q
          omega
        · exact h8 t ht

theorem Consec_insertAbs (sc : Nat) (scs : Slot) :
    ∀ (l : List (Nat × Slot)) (p : Int), Consec p l → Consec p (insertAbs sc scs l) := by
  intro l
  induction l with
  | nil => intro p _; trivial
  | cons x l ih =>
    intro p h
    cases l with
    | nil =>
      refine ⟨h.1, ?_, trivial⟩
      show x.2.position + 1 = p + 1
      rw [h.1]
    | cons y r =>
      have hy : ¬ y.2.position > x.2.position + 1 := by
        have h1 := h.1
        have h2 := h.2.1
        omega
      simp only [insertAbs, hy, if_false]
      exact ⟨h.1, ih (p + 1) h.2⟩

theorem Consec_positions :
    ∀ (l : List (Nat × Slot)) (p : Int), Consec p l →
      l.map (fun x => x.2.position)
        = (List.range l.length).map (fun (i : Nat) => (i : Int) + p) := by
  intro l
  induction l with
  | nil => intro p _; rfl
  | cons x l ih =>
    intro p h
    rw [List.length_cons, List.range_succ_eq_map, List.map_cons, List.map_cons, List.map_map,
      ih (p + 1) h.2, h.1]
    congr 1
    · simp
    · apply List.map_congr_left
      intro i _
      simp only [Function.comp, Nat.cast_succ]
      omega

theorem FreshRun.init (n : Int) : FreshRun n 0 (NewStorey n) :=
  ⟨rfl, [], rfl, Good_nil _, rfl, trivial, fun _ h => by cases h⟩

theorem FreshRun.park {n : Int} {j : Nat} {s : Storey} (h : FreshRun n j s)
    (hroom : (j : Int) < n) (numberPlate color : String) :
    ∃ a s', Park s numberPlate color = some (.ok a, s') ∧ FreshRun n (j + 1) s' := by
  obtain ⟨hmax, c, hc, hg, hlen, hcons, hhead⟩ := h
  obtain ⟨s', h1, h2, h3, h4⟩ := Park_chain hc hg numberPlate color (by rw [hlen, hmax]; exact hroom)
  refine ⟨_, s', h1, by rw [h2, hmax], _, h3, h4, ?_, ?_, ?_⟩
  · cases c with
    | nil => simp only [parkAbs, List.length_singleton]; simp at hlen; omega
    | cons x rest =>
      have hpos : ¬ x.2.position > 1 := by have := hcons.1; omega
      simp only [parkAbs, if_neg hpos]
      have := (insertAbs_fst s.mem.length (freshSlot (NewCar numberPlate color) 0)
        (x :: rest) (by simp)).length_eq
      simp only [List.length_map, List.length_cons] at this hlen
      omega
  · cases c with
    | nil => exact ⟨rfl, trivial⟩
    | cons x rest =>
      have hpos : ¬ x.2.position > 1 := by have := hcons.1; omega
      simp only [parkAbs, if_neg hpos]
      exact Consec_insertAbs _ _ _ _ hcons
  · cases c with
    | nil =>
      intro x hx
      simp only [parkAbs, List.head?_cons, Option.mem_def, Option.some.injEq] at hx
      subst hx
      rfl
    | cons x rest =>
      have hpos : ¬ x.2.position > 1 := by have := hcons.1; omega
      simp only [parkAbs, if_neg hpos]
      obtain ⟨v, l', e, _, _, hv⟩ := insertAbs_head_position s.mem.length
        (freshSlot (NewCar numberPlate color) 0) x rest
      rw [e]
      intro z hz
      simp only [List.head?_cons, Option.mem_def, Option.some.injEq] at hz
      subst hz
      rw [hv]
      exact hhead x (by simp)

theorem FreshRun.parkMany {n : Int} :
    ∀ (cars : List (String × String)) {j : Nat} {s : Storey}, FreshRun n j s →
      ((j + cars.length : Nat) : Int) ≤ n →
      ∃ s', parkMany s cars = some s' ∧ FreshRun n (j + cars.length) s' := by
  intro cars
  induction cars with
  | nil => intro j s h _; exact ⟨s, rfl, h⟩
  | cons pc rest ih =>
    intro j s h hn
    simp only [List.length_cons] at hn
    obtain ⟨a, s1, h1, h2⟩ := h.park (by push_cast at hn ⊢; omega) pc.1 pc.2
    obtain ⟨s', h3, h4⟩ := ih h2 (by
      have : j + 1 + rest.length = j + (rest.length + 1) := by omega
      rw [this]; exact hn)
    refine ⟨s', ?_, ?_⟩
    · simp only [ParkingLot.parkMany, h1]
      exact h3
    · have : j + (pc :: rest).length = j + 1 + rest.length := by
        simp only [List.length_cons]; omega
      rw [this]; exact h4

/-! ## The claims -/

/-- C1. After `NewStorey(2)`, `Park(A)`, `Park(B)`, `LeaveByPosition(1)` one
slot is left, at position 2, so position 1 is the least free position and
the occupancy 1 is below the capacity 2; `Park(C)` then returns without error
a slot whose position is 3. -/
theorem C1_park_misses_least_free_position :
    Reachable headFreed ∧ headFreed.maxSlots = 2 ∧ OccupancyCount headFreed = some 1 ∧
    (AllSlots headFreed).map (fun r => r.map (fun l => l.map Slot.Position)) = some (.ok [2]) ∧
    (Park headFreed "C" "green").map Prod.fst = some (.ok 3) ∧
    ((afterPark headFreed "C" "green").mem[3]?).map Slot.Position = some 3 :=
  ⟨Reachable.headFreed, by decide, by decide, by decide, by decide, by decide⟩

/-- C2. For every storey state produced by the operations, `Park` returns
`ErrMaxSlotReached` exactly when `OccupancyCount() >= maxSlots` and succeeds
otherwise (whatever plates are already parked), and whenever it fails the
storey is unchanged, hence so are `AllSlots` and `OccupancyCount`. -/
theorem C2_park_fails_iff_full (s : Storey) (hr : Reachable s) (numberPlate color : String) :
    ∃ cnt r s', OccupancyCount s = some cnt ∧ Park s numberPlate color = some (r, s') ∧
      (r = .error .ErrMaxSlotReached ↔ cnt ≥ s.maxSlots) ∧
      ((∃ a, r = .ok a) ↔ cnt < s.maxSlots) ∧
      (∀ e, r = .error e →
        s' = s ∧ AllSlots s' = AllSlots s ∧ OccupancyCount s' = OccupancyCount s) := by
  obtain ⟨l, hc, hg⟩ := hr.inv
  by_cases hfull : s.maxSlots ≤ (l.length : Int)
  · refine ⟨l.length, _, s, OccupancyCount_chain hc hg.nodup,
      Park_full hc hg.nodup numberPlate color hfull, ?_, ?_, ?_⟩
    · exact ⟨fun _ => hfull, fun _ => rfl⟩
    · constructor
      · rintro ⟨a, ha⟩; cases ha
      · intro h; omega
    · intro e _; exact ⟨rfl, rfl, rfl⟩
  · obtain ⟨s1, h1, _, _, _⟩ := Park_chain hc hg numberPlate color (by omega)
    refine ⟨l.length, _, s1, OccupancyCount_chain hc hg.nodup, h1, ?_, ?_, ?_⟩
    · constructor
      · intro h; cases h
      · intro h; exact absurd h hfull
    · exact ⟨fun _ => by omega, fun _ => ⟨_, rfl⟩⟩
    · intro e he; cases he

/-- Witness of C2 on a full storey of capacity 1. -/
theorem C2_park_fails_iff_full_witness :
    Reachable fullOne ∧
    ∃ cnt r s', OccupancyCount fullOne = some cnt ∧ Park fullOne "KA-01" "white" = some (r, s') ∧
      (r = .error .ErrMaxSlotReached ↔ cnt ≥ fullOne.maxSlots) ∧
      ((∃ a, r = .ok a) ↔ cnt < fullOne.maxSlots) ∧
      (∀ e, r = .error e →
        s' = fullOne ∧ AllSlots s' = AllSlots fullOne
          ∧ OccupancyCount s' = OccupancyCount fullOne) :=
  ⟨(Reachable.init 1).afterPark "KA-01" "white",
   C2_park_fails_iff_full fullOne ((Reachable.init 1).afterPark "KA-01" "white") "KA-01" "white"⟩

/-- C3. After `NewStorey(2)`, `Park(A)`, `Park(B)`, `LeaveByPosition(1)`,
`Park(C)` the storey of capacity 2 has three slots in its chain. -/
theorem C3_capacity_exceeded :
    Reachable (afterPark headFreed "C" "green") ∧
    (afterPark headFreed "C" "green").maxSlots = 2 ∧
    OccupancyCount (afterPark headFreed "C" "green") = some 3 ∧
    (AllSlots (afterPark headFreed "C" "green")).map
        (fun r => r.map (fun l => l.map
          (fun x => (x.Position, x.RegistrationNumber))))
      = some (.ok [(1, "C"), (2, "B"), (3, "C")]) :=
  ⟨Reachable.headFreed.afterPark "C" "green", by decide, by decide, by decide⟩

/-- C4. For every storey state produced by `Park`, `Leave` and
`LeaveByPosition` calls from `NewStorey n`: either the chain is empty, or
`AllSlots` returns the slots of the chain and their positions, in traversal
order, are strictly increasing integers that are at least 1 (so no position
occurs twice). -/
theorem C4_positions_strictly_increasing (s : Storey) (hr : Reachable s) :
    (s.slotList = none ∧ AllSlots s = some (.error .ErrNoCarsParked)) ∨
    ∃ l, AllSlots s = some (.ok l) ∧ l ≠ [] ∧
      (l.map Slot.Position).Pairwise (· < ·) ∧ (∀ x ∈ l, 1 ≤ x.Position) ∧
      (l.map Slot.Position).Nodup := by
  obtain ⟨l, hc, hg⟩ := hr.inv
  have hall := AllSlots_chain hc hg.nodup
  by_cases hl : l = []
  · left
    rw [if_pos hl] at hall
    exact ⟨(IsChain.slotList_eq_none_iff hc).2 hl, hall⟩
  · right
    rw [if_neg hl] at hall
    have hpw : ((l.map Prod.snd).map Slot.Position).Pairwise (· < ·) := by
      rw [List.map_map]
      exact (List.pairwise_map (f := Slot.Position ∘ Prod.snd)).2 hg.sorted
    refine ⟨l.map Prod.snd, hall, by simpa using hl, hpw, ?_, ?_⟩
    · intro x hx
      obtain ⟨y, hy, rfl⟩ := List.mem_map.1 hx
      exact hg.pos y hy
    · exact hpw.imp (fun h => ne_of_lt h)

/-- Witness of C4 on the state with positions 1 and 3. -/
theorem C4_positions_strictly_increasing_witness :
    Reachable gapped ∧
    ((gapped.slotList = none ∧ AllSlots gapped = some (.error .ErrNoCarsParked)) ∨
    ∃ l, AllSlots gapped = some (.ok l) ∧ l ≠ [] ∧
      (l.map Slot.Position).Pairwise (· < ·) ∧ (∀ x ∈ l, 1 ≤ x.Position) ∧
      (l.map Slot.Position).Nodup) :=
  ⟨Reachable.gapped, C4_positions_strictly_increasing gapped Reachable.gapped⟩

/-- C5. After `NewStorey(2)`, `Park(A)`, `Park(B)`, `LeaveByPosition(1)` the
chain holds the slot of plate B at position 2 (its back reference still names
the released slot); `LeaveByPosition(2)` returns that slot without error, and
afterwards `AllSlots` and `OccupancyCount` are what they were. -/
theorem C5_release_keeps_slot :
    Reachable headFreed ∧
    AllSlots headFreed = some (.ok [⟨some 0, some ⟨"B", "blue"⟩, 2, none⟩]) ∧
    (LeaveByPosition headFreed 2).map Prod.fst = some (.ok 1) ∧
    AllSlots (afterLeaveByPosition headFreed 2) = AllSlots headFreed ∧
    OccupancyCount (afterLeaveByPosition headFreed 2) = some 1 ∧
    (Leave headFreed "B").map Prod.fst = some (.ok 1) ∧
    AllSlots (afterLeave headFreed "B") = AllSlots headFreed :=
  ⟨Reachable.headFreed, by decide, by decide, by decide, by decide, by decide, by decide⟩

/-- C6, as stated, fails on `NewStorey(1)`: `Park("KA-01")` and then
`Leave("KA-01")` succeed, and `FindByRegistrationNumber("KA-01")` fails with
`ErrNoCarsParked`, not with `ErrCarNotFound`. -/
theorem C6_counterexample :
    (Park (NewStorey 1) "KA-01" "white").map Prod.fst = some (.ok 0) ∧
    (Leave (afterPark (NewStorey 1) "KA-01" "white") "KA-01").map Prod.fst = some (.ok 0) ∧
    FindByRegistrationNumber
        (afterLeave (afterPark (NewStorey 1) "KA-01" "white") "KA-01") "KA-01"
      = some (.error .ErrNoCarsParked) ∧
    FindByRegistrationNumber
        (afterLeave (afterPark (NewStorey 1) "KA-01" "white") "KA-01") "KA-01"
      ≠ some (.error .ErrCarNotFound) :=
  ⟨by decide, by decide, by decide, by decide⟩

/-- C6 (amended). For every storey state produced by the operations whose
chain is empty or has its head slot at position 1, and every plate that no
slot carries: when `Park` succeeds, the following `Leave` of that plate
succeeds and returns the slot `Park` returned, and then
`FindByRegistrationNumber` of that plate fails, with `ErrNoCarsParked` when
the chain was empty before the `Park` and with `ErrCarNotFound` otherwise. -/
theorem C6_release_then_find (s s1 : Storey) (hr : Reachable s) (numberPlate color : String)
    (a : Nat)
    (hhead : ∀ l, AllSlots s = some (.ok l) → ∀ x ∈ l.head?, x.Position = 1)
    (hnew : ∀ l, AllSlots s = some (.ok l) → ∀ x ∈ l, x.RegistrationNumber ≠ numberPlate)
    (hpark : Park s numberPlate color = some (.ok a, s1)) :
    ∃ s2, Leave s1 numberPlate = some (.ok a, s2) ∧
      FindByRegistrationNumber s2 numberPlate
        = some (.error (if s.slotList = none then .ErrNoCarsParked else .ErrCarNotFound)) := by
  obtain ⟨l, hc, hg⟩ := hr.inv
  have hall := AllSlots_chain hc hg.nodup
  have hnil := IsChain.slotList_eq_none_iff hc
  by_cases hfull : s.maxSlots ≤ (l.length : Int)
  · rw [Park_full hc hg.nodup numberPlate color hfull] at hpark
    cases hpark
  obtain ⟨s1', h1, _, hc1, hg1⟩ := Park_chain hc hg numberPlate color (by omega)
  rw [h1] at hpark
  cases hpark
  have hplate : (freshSlot (NewCar numberPlate color) 0).car
      = some (NewCar numberPlate color) := rfl
  cases l with
  | nil =>
    rw [if_pos (hnil.2 rfl)]
    simp only [parkAbs] at hc1 hg1 ⊢
    have hf : firstAddr (fun x => decide (x.2.RegistrationNumber = numberPlate))
        ([] ++ (s.mem.length, freshSlot (NewCar numberPlate color) 1) :: [])
          = .ok s.mem.length :=
      firstAddr_split (by simp [Slot.RegistrationNumber, freshSlot, NewCar])
        (fun z hz => by cases hz)
    obtain ⟨s2, l', u1, _, _, _, u5, u6, u7⟩ :=
      @unlink_chain _ [] [] (s.mem.length, _) hc1 hg1
    have hl' : l' = [] := by
      rcases u7 with ⟨_, _, h⟩ | ⟨l0, w, h, _⟩ | ⟨p, h, _⟩
      · exact h
      · simp at h
      · simp [freshSlot] at h
    subst hl'
    refine ⟨s2, ?_, ?_⟩
    · rw [Leave_chain hc1 hg1, if_neg (by simp)]
      rw [List.nil_append] at hf
      rw [hf]
      exact u1
    · rw [FindByRegistrationNumber_chain u5 u6, if_pos rfl]
  | cons x rest =>
    rw [if_neg (fun h => by cases hnil.1 h)]
    rw [if_neg (by simp)] at hall
    have hx1 : ¬ x.2.position > 1 := by
      have := hhead _ hall x.2 (by simp)
      simp only [Slot.Position] at this
      omega
    have hold : ∀ z ∈ x :: rest, z.2.RegistrationNumber ≠ numberPlate :=
      fun z hz => hnew _ hall z.2 (List.mem_map.2 ⟨z, hz, rfl⟩)
    simp only [parkAbs, if_neg hx1] at hc1 hg1 ⊢
    obtain ⟨l0, w, v, l2, e1, e2, e3, e4⟩ :=
      insertAbs_split s.mem.length (freshSlot (NewCar numberPlate color) 0) (x :: rest)
        (by simp)
    have hothers : ∀ z ∈ l0 ++ w :: l2, z.2.RegistrationNumber ≠ numberPlate := by
      intro z hz
      obtain ⟨z0, hz0, _, hcar⟩ := e4 z hz
      rw [registrationNumber_congr hcar]
      exact hold z0 hz0
    have hv : v.RegistrationNumber = numberPlate := by
      simp [Slot.RegistrationNumber, e3, freshSlot, NewCar]
    have e1' : insertAbs s.mem.length (freshSlot (NewCar numberPlate color) 0) (x :: rest)
        = (l0 ++ [w]) ++ (s.mem.length, v) :: l2 := by
      rw [e1]; simp
    rw [e1'] at hc1 hg1
    have hf : firstAddr (fun x => decide (x.2.RegistrationNumber = numberPlate))
        ((l0 ++ [w]) ++ (s.mem.length, v) :: l2) = .ok s.mem.length :=
      firstAddr_split (x := (s.mem.length, v)) (by simp [hv]) (by
        intro z hz
        have := hothers z (by
          simp only [List.mem_append, List.mem_singleton, List.mem_cons, List.not_mem_nil,
            or_false] at hz ⊢
          rcases hz with h | h
          · exact Or.inl h
          · exact Or.inr (Or.inl h))
        simpa using this)
    obtain ⟨s2, l', u1, _, _, _, u5, u6, u7⟩ := unlink_chain hc1 hg1
    have hl' : l' ≠ [] ∧ ∀ z ∈ l', z.2.RegistrationNumber ≠ numberPlate := by
      rcases u7 with ⟨h, _⟩ | ⟨l0', w', h1, _, h3⟩ | ⟨p, h1, h2, _⟩
      · rw [e2] at h; cases h
      · obtain ⟨hl0, hw⟩ := List.append_inj' h1 rfl
        subst hl0
        have hw' : w' = w := by simpa using hw.symm
        subst hw'
        rw [h3]
        refine ⟨by simp, ?_⟩
        intro z hz
        simp only [List.mem_append, List.mem_cons] at hz
        rcases hz with hz | rfl | hz
        · exact hothers z (by simp [hz])
        · exact hothers w' (by simp)
        · exact hothers z (by simp [hz])
      · exfalso
        apply h2
        have : p = w.1 := by
          have h := h1
          simp only [e2] at h
          injection h with h
          exact h.symm
        rw [this]
        simp
    refine ⟨s2, ?_, ?_⟩
    · rw [Leave_chain hc1 hg1, if_neg (by simp), hf]
      exact u1
    · rw [FindByRegistrationNumber_chain u5 u6, if_neg hl'.1,
        firstAddr_none (fun z hz => by simpa using hl'.2 z hz)]

/-- Witness of the amended C6: plate KA-01 parked next to plate A and released. -/
theorem C6_release_then_find_witness :
    Reachable oneParked ∧
    (∀ l, AllSlots oneParked = some (.ok l) → ∀ x ∈ l.head?, x.Position = 1) ∧
    (∀ l, AllSlots oneParked = some (.ok l) → ∀ x ∈ l, x.RegistrationNumber ≠ "KA-01") ∧
    Park oneParked "KA-01" "white" = some (.ok 1, afterPark oneParked "KA-01" "white") ∧
    ∃ s2, Leave (afterPark oneParked "KA-01" "white") "KA-01" = some (.ok 1, s2) ∧
      FindByRegistrationNumber s2 "KA-01"
        = some (.error (if oneParked.slotList = none then .ErrNoCarsParked
            else .ErrCarNotFound)) := by
  have hall : AllSlots oneParked = some (.ok [⟨none, some ⟨"A", "red"⟩, 1, none⟩]) := by
    decide
  have h1 : ∀ l, AllSlots oneParked = some (.ok l) → ∀ x ∈ l.head?, x.Position = 1 := by
    intro l hl x hx
    rw [hall] at hl
    cases hl
    cases hx
    rfl
  have h2 : ∀ l, AllSlots oneParked = some (.ok l) →
      ∀ x ∈ l, x.RegistrationNumber ≠ "KA-01" := by
    intro l hl x hx
    rw [hall] at hl
    cases hl
    rw [List.mem_singleton.1 hx]
    decide
  have h3 : Park oneParked "KA-01" "white"
      = some (.ok 1, afterPark oneParked "KA-01" "white") := by decide
  exact ⟨Reachable.oneParked, h1, h2, h3,
    C6_release_then_find oneParked _ Reachable.oneParked "KA-01" "white" 1 h1 h2 h3⟩

/-- C7. For every storey state produced by the operations and every position:
`LeaveByPosition` returns `ErrNoCarsParked` exactly when the chain is empty,
`ErrCarNotFound` exactly when the chain is not empty and no slot listed by
`AllSlots` has that position, and in both cases the storey is unchanged; the
same holds for `Leave` and the slots' registration numbers. -/
theorem C7_release_failures (s : Storey) (hr : Reachable s) (position : Int)
    (numberPlate : String) :
    (∃ r s', LeaveByPosition s position = some (r, s') ∧
      (r = .error .ErrNoCarsParked ↔ s.slotList = none) ∧
      (r = .error .ErrCarNotFound ↔
        ∃ l, AllSlots s = some (.ok l) ∧ ∀ x ∈ l, x.Position ≠ position) ∧
      (∀ e, r = .error e →
        s' = s ∧ AllSlots s' = AllSlots s ∧ OccupancyCount s' = OccupancyCount s)) ∧
    (∃ r s', Leave s numberPlate = some (r, s') ∧
      (r = .error .ErrNoCarsParked ↔ s.slotList = none) ∧
      (r = .error .ErrCarNotFound ↔
        ∃ l, AllSlots s = some (.ok l) ∧ ∀ x ∈ l, x.RegistrationNumber ≠ numberPlate) ∧
      (∀ e, r = .error e →
        s' = s ∧ AllSlots s' = AllSlots s ∧ OccupancyCount s' = OccupancyCount s)) := by
  obtain ⟨l, hc, hg⟩ := hr.inv
  have hall := AllSlots_chain hc hg.nodup
  have hnil := IsChain.slotList_eq_none_iff hc
  -- both operations search for the first cell satisfying a test `p`
  have key : ∀ (p : Nat × Slot → Bool) (q : Slot → Prop), (∀ x, p x = true ↔ q x.2) →
      ∀ op : Option (Except Error Nat × Storey),
      (op = if l = [] then some (.error .ErrNoCarsParked, s)
        else match firstAddr p l with
          | .ok a => unlink s a
          | .error _ => some (.error .ErrCarNotFound, s)) →
      ∃ r s', op = some (r, s') ∧
        (r = .error .ErrNoCarsParked ↔ s.slotList = none) ∧
        (r = .error .ErrCarNotFound ↔ ∃ l', AllSlots s = some (.ok l') ∧ ∀ x ∈ l', ¬ q x) ∧
        (∀ e, r = .error e →
          s' = s ∧ AllSlots s' = AllSlots s ∧ OccupancyCount s' = OccupancyCount s) := by
    intro p q hpq op hop
    by_cases hl : l = []
    · rw [if_pos hl] at hop hall
      refine ⟨_, _, hop, ⟨fun _ => hnil.2 hl, fun _ => rfl⟩, ⟨?_, ?_⟩,
        fun _ _ => ⟨rfl, rfl, rfl⟩⟩
      · intro h; cases h
      · rintro ⟨l', h, _⟩
        rw [hall] at h
        cases h
    · rw [if_neg hl] at hop hall
      have hsl : s.slotList ≠ none := fun h => hl (hnil.1 h)
      cases hf : firstAddr p l with
      | error e =>
        rw [hf] at hop
        obtain ⟨_, hno⟩ := firstAddr_error hf
        refine ⟨_, _, hop, ⟨?_, fun h => absurd h hsl⟩, ⟨fun _ => ⟨_, hall, ?_⟩, fun _ => rfl⟩,
          fun _ _ => ⟨rfl, rfl, rfl⟩⟩
        · intro h; cases h
        · intro x hx hq
          obtain ⟨y, hy, rfl⟩ := List.mem_map.1 hx
          have := (hpq y).2 hq
          rw [hno y hy] at this
          cases this
      | ok a =>
        rw [hf] at hop
        obtain ⟨l1, x, l2, e, hx, hpx, _⟩ := firstAddr_ok hf
        subst e; subst hx
        obtain ⟨s1, l', h1, _⟩ := unlink_chain hc hg
        have hop' : op = some (.ok x.1, s1) := by rw [hop]; exact h1
        refine ⟨_, _, hop', ⟨?_, fun h => absurd h hsl⟩, ⟨?_, ?_⟩, ?_⟩
        · intro h; cases h
        · intro h; cases h
        · rintro ⟨l', h, hno⟩
          rw [hall] at h
          cases h
          exact absurd ((hpq x).1 hpx) (hno x.2 (List.mem_map.2 ⟨x, by simp, rfl⟩))
        · intro e he; cases he
  constructor
  · exact key (fun x => decide (x.2.position = position)) (fun x => x.Position = position)
      (fun x => by simp [Slot.Position]) _ (LeaveByPosition_chain hc hg position)
  · exact key (fun x => decide (x.2.RegistrationNumber = numberPlate))
      (fun x => x.RegistrationNumber = numberPlate) (fun x => by simp) _
      (Leave_chain hc hg numberPlate)

/-- Witness of C7: position 5 and plate Z are absent from a chain of two slots. -/
theorem C7_release_failures_witness :
    Reachable twoParked ∧
    (∃ r s', LeaveByPosition twoParked 5 = some (r, s') ∧
      (r = .error .ErrNoCarsParked ↔ twoParked.slotList = none) ∧
      (r = .error .ErrCarNotFound ↔
        ∃ l, AllSlots twoParked = some (.ok l) ∧ ∀ x ∈ l, x.Position ≠ 5) ∧
      (∀ e, r = .error e →
        s' = twoParked ∧ AllSlots s' = AllSlots twoParked
          ∧ OccupancyCount s' = OccupancyCount twoParked)) ∧
    (∃ r s', Leave twoParked "Z" = some (r, s') ∧
      (r = .error .ErrNoCarsParked ↔ twoParked.slotList = none) ∧
      (r = .error .ErrCarNotFound ↔
        ∃ l, AllSlots twoParked = some (.ok l) ∧ ∀ x ∈ l, x.RegistrationNumber ≠ "Z") ∧
      (∀ e, r = .error e →
        s' = twoParked ∧ AllSlots s' = AllSlots twoParked
          ∧ OccupancyCount s' = OccupancyCount twoParked)) :=
  ⟨Reachable.twoParked, C7_release_failures twoParked Reachable.twoParked 5 "Z"⟩

/-- C8. On the freshly constructed `NewStorey n` the two searches and the two
release operations fail with `ErrNoCarsParked`, and `OccupancyCount` is 0. -/
theorem C8_empty_chain_queries (n : Int) (numberPlate color : String) (position : Int) :
    FindByRegistrationNumber (NewStorey n) numberPlate = some (.error .ErrNoCarsParked) ∧
    FindAllByColor (NewStorey n) color = some (.error .ErrNoCarsParked) ∧
    Leave (NewStorey n) numberPlate = some (.error .ErrNoCarsParked, NewStorey n) ∧
    LeaveByPosition (NewStorey n) position = some (.error .ErrNoCarsParked, NewStorey n) ∧
    OccupancyCount (NewStorey n) = some 0 :=
  ⟨rfl, rfl, rfl, rfl, rfl⟩

/-- C9. For every storey state produced by the operations whose chain is not
empty, with `l` the slots returned by `AllSlots` (each of them holds a car):
if some slot has color `color`, `FindAllByColor` returns without error the
slots of `l` with that color, in the order of `l`; if none has, it returns
`ErrCarWithColorNotFound`; in no case does it return `ErrNoCarsParked`. -/
theorem C9_find_all_by_color (s : Storey) (hr : Reachable s) (hne : s.slotList ≠ none)
    (color : String) :
    ∃ l, AllSlots s = some (.ok l) ∧ (∀ x ∈ l, x.car ≠ none) ∧
      ((∃ x ∈ l, x.Color = color) →
        FindAllByColor s color = some (.ok (l.filter (fun x => decide (x.Color = color))))) ∧
      ((∀ x ∈ l, x.Color ≠ color) →
        FindAllByColor s color = some (.error .ErrCarWithColorNotFound)) ∧
      FindAllByColor s color ≠ some (.error .ErrNoCarsParked) := by
  obtain ⟨l, hc, hg⟩ := hr.inv
  have hl : l ≠ [] := fun h => hne ((IsChain.slotList_eq_none_iff hc).2 h)
  have hall := AllSlots_chain hc hg.nodup
  have hfind := FindAllByColor_chain hc hg color
  rw [if_neg hl] at hall hfind
  refine ⟨l.map Prod.snd, hall, ?_, ?_, ?_, ?_⟩
  · intro x hx
    obtain ⟨y, hy, rfl⟩ := List.mem_map.1 hx
    exact hg.cars y hy
  · rintro ⟨x, hx, hcol⟩
    rw [hfind, if_neg]
    intro he
    have : x ∈ (l.map Prod.snd).filter (fun x => decide (x.Color = color)) :=
      List.mem_filter.2 ⟨hx, by simp [hcol]⟩
    rw [he] at this
    cases this
  · intro hno
    rw [hfind, if_pos]
    rw [List.filter_eq_nil_iff]
    intro x hx
    simpa using hno x hx
  · rw [hfind]
    by_cases he : (l.map Prod.snd).filter (fun x => decide (x.Color = color)) = []
    · rw [if_pos he]; intro h; cases h
    · rw [if_neg he]; intro h; cases h

/-- Witness of C9: with P1 (red), P2 (blue), P3 (red) parked, the red slots are
those of P1 and P3, in that order. -/
theorem C9_find_all_by_color_witness :
    Reachable threeColors ∧ threeColors.slotList ≠ none ∧
    (FindAllByColor threeColors "red").map
        (fun r => r.map (fun l => l.map Slot.RegistrationNumber))
      = some (.ok ["P1", "P3"]) ∧
    ∃ l, AllSlots threeColors = some (.ok l) ∧ (∀ x ∈ l, x.car ≠ none) ∧
      ((∃ x ∈ l, x.Color = "red") →
        FindAllByColor threeColors "red"
          = some (.ok (l.filter (fun x => decide (x.Color = "red"))))) ∧
      ((∀ x ∈ l, x.Color ≠ "red") →
        FindAllByColor threeColors "red" = some (.error .ErrCarWithColorNotFound)) ∧
      FindAllByColor threeColors "red" ≠ some (.error .ErrNoCarsParked) :=
  ⟨Reachable.threeColors, by decide, by decide,
   C9_find_all_by_color threeColors Reachable.threeColors (by decide) "red"⟩

/-- C10. For every storey state produced by the operations whose chain is not
empty, with `l` the slots returned by `AllSlots`: `FindByRegistrationNumber`
returns `ErrCarNotFound` exactly when no slot of `l` carries the plate, and
when some slot does it returns without error the address of the first such
slot in traversal order, whose position is the lowest among them. -/
theorem C10_find_by_plate (s : Storey) (hr : Reachable s) (hne : s.slotList ≠ none)
    (numberPlate : String) :
    ∃ l, AllSlots s = some (.ok l) ∧
      (FindByRegistrationNumber s numberPlate = some (.error .ErrCarNotFound) ↔
        ∀ x ∈ l, x.RegistrationNumber ≠ numberPlate) ∧
      ((∃ x ∈ l, x.RegistrationNumber = numberPlate) →
        ∃ l1 x l2 a, l = l1 ++ x :: l2 ∧ x.RegistrationNumber = numberPlate ∧
          (∀ y ∈ l1, y.RegistrationNumber ≠ numberPlate) ∧
          FindByRegistrationNumber s numberPlate = some (.ok a) ∧ s.mem[a]? = some x ∧
          (∀ y ∈ l, y.RegistrationNumber = numberPlate → x.Position ≤ y.Position)) := by
  obtain ⟨l, hc, hg⟩ := hr.inv
  have hl : l ≠ [] := fun h => hne ((IsChain.slotList_eq_none_iff hc).2 h)
  have hall := AllSlots_chain hc hg.nodup
  have hfind := FindByRegistrationNumber_chain hc hg numberPlate
  rw [if_neg hl] at hall hfind
  refine ⟨l.map Prod.snd, hall, ?_⟩
  cases hf : firstAddr (fun x => decide (x.2.RegistrationNumber = numberPlate)) l with
  | error e =>
    obtain ⟨he, hno⟩ := firstAddr_error hf
    subst he
    have hno' : ∀ x ∈ l.map Prod.snd, x.RegistrationNumber ≠ numberPlate := by
      intro x hx
      obtain ⟨y, hy, rfl⟩ := List.mem_map.1 hx
      simpa using hno y hy
    rw [hfind, hf]
    refine ⟨⟨fun _ => hno', fun _ => rfl⟩, ?_⟩
    rintro ⟨x, hx, hp⟩
    exact absurd hp (hno' x hx)
  | ok a =>
    obtain ⟨l1, x, l2, e, hx, hpx, hbefore⟩ := firstAddr_ok hf
    subst e; subst hx
    have hpx' : x.2.RegistrationNumber = numberPlate := by simpa using hpx
    rw [hfind, hf]
    refine ⟨⟨?_, ?_⟩, ?_⟩
    · intro h; cases h
    · intro hno
      exact absurd hpx' (hno x.2 (List.mem_map.2 ⟨x, by simp, rfl⟩))
    · intro _
      have hsorted := hg.sorted
      rw [List.pairwise_append] at hsorted
      refine ⟨l1.map Prod.snd, x.2, l2.map Prod.snd, x.1, by simp, hpx', ?_, rfl,
        hc.mem_get x (by simp), ?_⟩
      · intro y hy
        obtain ⟨z, hz, rfl⟩ := List.mem_map.1 hy
        simpa using hbefore z hz
      · intro y hy hyp
        obtain ⟨z, hz, rfl⟩ := List.mem_map.1 hy
        rcases List.mem_append.1 hz with hz | hz
        · have := hbefore z hz
          simp only [decide_eq_false_iff_not] at this
          exact absurd hyp this
        · rcases List.mem_cons.1 hz with rfl | hz
          · exact le_refl _
          · exact le_of_lt ((List.pairwise_cons.1 hsorted.2.1).1 z hz)

/-- Witness of C10 on the plate P3 of the state `threeColors`. -/
theorem C10_find_by_plate_witness :
    Reachable threeColors ∧ threeColors.slotList ≠ none ∧
    ∃ l, AllSlots threeColors = some (.ok l) ∧
      (FindByRegistrationNumber threeColors "P3" = some (.error .ErrCarNotFound) ↔
        ∀ x ∈ l, x.RegistrationNumber ≠ "P3") ∧
      ((∃ x ∈ l, x.RegistrationNumber = "P3") →
        ∃ l1 x l2 a, l = l1 ++ x :: l2 ∧ x.RegistrationNumber = "P3" ∧
          (∀ y ∈ l1, y.RegistrationNumber ≠ "P3") ∧
          FindByRegistrationNumber threeColors "P3" = some (.ok a) ∧
          threeColors.mem[a]? = some x ∧
          (∀ y ∈ l, y.RegistrationNumber = "P3" → x.Position ≤ y.Position)) :=
  ⟨Reachable.threeColors, by decide,
   C10_find_by_plate threeColors Reachable.threeColors (by decide) "P3"⟩

/-- C11. For every list of k >= 2 (plate, color) pairs and every capacity
n >= k: the k calls of `Park` on `NewStorey n` all succeed and `AllSlots`
then lists slots at positions 1 to k; `LeaveByPosition(1)` succeeds and
returns the first of them; afterwards `OccupancyCount` is k - 1, the head is
the slot that was second (the successor of the released slot), it is at
position 2, and `AllSlots` lists the former slots but the first, at
positions 2 to k. -/
theorem C11_head_retarget (n : Int) (cars : List (String × String))
    (hk : 2 ≤ cars.length) (hn : (cars.length : Int) ≤ n) :
    ∃ s hd second rest a s', parkMany (NewStorey n) cars = some s ∧
      AllSlots s = some (.ok (hd :: second :: rest)) ∧
      (hd :: second :: rest).map Slot.Position
        = (List.range cars.length).map (fun (i : Nat) => (i : Int) + 1) ∧
      LeaveByPosition s 1 = some (.ok a, s') ∧ s'.mem[a]? = some hd ∧
      OccupancyCount s' = some ((cars.length : Int) - 1) ∧
      AllSlots s' = some (.ok (second :: rest)) ∧
      (∃ b, s'.slotList = some b ∧ hd.nextSlot = some b ∧ s'.mem[b]? = some second) ∧
      second.Position = 2 ∧
      (second :: rest).map Slot.Position
        = (List.range (cars.length - 1)).map (fun (i : Nat) => (i : Int) + 2) := by
  obtain ⟨s, hs, hrun⟩ := FreshRun.parkMany cars (FreshRun.init n) (by simpa using hn)
  rw [Nat.zero_add] at hrun
  obtain ⟨_, c, hc, hg, hlen, hcons, hhead⟩ := hrun
  cases c with
  | nil => simp at hlen; omega
  | cons x c1 =>
    cases c1 with
    | nil => simp at hlen; omega
    | cons y rest =>
      have hx1 : x.2.position = 1 := hcons.1
      have hy2 : y.2.position = 2 := by have := hcons.2.1; omega
      have hprev : x.2.prevSlot = none := hhead x (by simp)
      have hnext : x.2.nextSlot = some y.1 := hc.2.2.1
      have hall := AllSlots_chain hc hg.nodup
      rw [if_neg (by simp)] at hall
      have hfirst : firstAddr (fun z => decide (z.2.position = 1)) ([] ++ x :: y :: rest)
          = .ok x.1 := firstAddr_split (by simp [hx1]) (fun z hz => by cases hz)
      rw [List.nil_append] at hfirst
      have hleave := LeaveByPosition_chain hc hg 1
      rw [if_neg (by simp), hfirst] at hleave
      obtain ⟨s', l', u1, _, _, u4, u5, u6, u7⟩ := @unlink_chain s [] (y :: rest) x hc hg
      have hl' : l' = y :: rest := by
        rcases u7 with ⟨_, _, h⟩ | ⟨l0, w, h, _⟩ | ⟨p, h, _⟩
        · exact h
        · simp at h
        · rw [hprev] at h; cases h
      subst hl'
      have hall' := AllSlots_chain u5 u6.nodup
      rw [if_neg (by simp)] at hall'
      have hp1 := Consec_positions _ _ hcons
      have hp2 := Consec_positions _ _ hcons.2
      have hlen2 : (y :: rest).length = cars.length - 1 := by
        simp only [List.length_cons] at hlen ⊢
        omega
      refine ⟨s, x.2, y.2, rest.map Prod.snd, x.1, s', hs, hall, ?_, ?_, u4, ?_, hall',
        ⟨y.1, u5.1, hnext, u5.2.1⟩, hy2, ?_⟩
      · rw [← hlen, ← hp1]
        simp [Slot.Position, Function.comp]
      · rw [hleave]; exact u1
      · rw [OccupancyCount_chain u5 u6.nodup, hlen2]
        congr 1
        omega
      · rw [← hlen2]
        have : (1 : Int) + 1 = 2 := rfl
        rw [this] at hp2
        rw [← hp2]
        simp [Slot.Position, Function.comp]

/-- Witness of C11 for k = 2 and capacity 2. -/
theorem C11_head_retarget_witness :
    2 ≤ [("A", "red"), ("B", "blue")].length ∧
    (([("A", "red"), ("B", "blue")].length : Nat) : Int) ≤ 2 ∧
    ∃ s hd second rest a s', parkMany (NewStorey 2) [("A", "red"), ("B", "blue")] = some s ∧
      AllSlots s = some (.ok (hd :: second :: rest)) ∧
      (hd :: second :: rest).map Slot.Position
        = (List.range [("A", "red"), ("B", "blue")].length).map
            (fun (i : Nat) => (i : Int) + 1) ∧
      LeaveByPosition s 1 = some (.ok a, s') ∧ s'.mem[a]? = some hd ∧
      OccupancyCount s' = some ((([("A", "red"), ("B", "blue")].length : Nat) : Int) - 1) ∧
      AllSlots s' = some (.ok (second :: rest)) ∧
      (∃ b, s'.slotList = some b ∧ hd.nextSlot = some b ∧ s'.mem[b]? = some second) ∧
      second.Position = 2 ∧
      (second :: rest).map Slot.Position
        = (List.range ([("A", "red"), ("B", "blue")].length - 1)).map
            (fun (i : Nat) => (i : Int) + 2) :=
  ⟨by decide, by decide,
   C11_head_retarget 2 [("A", "red"), ("B", "blue")] (by decide) (by decide)⟩

/-- C12, as stated, fails on `NewStorey(5)`: `AllSlots` returns the failure
`ErrNoCarsParked`, not an empty sequence without failure. -/
theorem C12_counterexample :
    AllSlots (NewStorey 5) = some (.error .ErrNoCarsParked) ∧
    AllSlots (NewStorey 5) ≠ some (.ok []) :=
  ⟨by decide, by decide⟩

/-- C12 (amended). For every storey whose head is absent, `AllSlots` returns
the failure `ErrNoCarsParked` (next to an empty sequence), whereas
`OccupancyCount` returns 0 and has no failure to return. -/
theorem C12_all_slots_empty_chain (s : Storey) (h : s.slotList = none) :
    AllSlots s = some (.error .ErrNoCarsParked) ∧
    (AllSlots s).map returnedSlots = some [] ∧
    OccupancyCount s = some 0 := by
  simp [AllSlots, OccupancyCount, h, returnedSlots]

/-- Witness of the amended C12 on `NewStorey(5)`. -/
theorem C12_all_slots_empty_chain_witness :
    (NewStorey 5).slotList = none ∧
    AllSlots (NewStorey 5) = some (.error .ErrNoCarsParked) ∧
    (AllSlots (NewStorey 5)).map returnedSlots = some [] ∧
    OccupancyCount (NewStorey 5) = some 0 :=
  ⟨rfl, C12_all_slots_empty_chain (NewStorey 5) rfl⟩

/-- C13. After `NewStorey(2)`, `Park(A)`, `Park(B)`, `LeaveByPosition(1)` the
chain is not empty, its head is at position 2 and the occupancy is 1 < 2;
`Park(C)` then links two slots holding C, the returned slot is the second of
them, at position 3, and the occupancy has grown by two. -/
theorem C13_park_inserts_twice :
    Reachable headFreed ∧ headFreed.maxSlots = 2 ∧ OccupancyCount headFreed = some 1 ∧
    (AllSlots headFreed).map (fun r => (returnedSlots r).map Slot.triple)
      = some [(2, "B", "blue")] ∧
    (Park headFreed "C" "green").map Prod.fst = some (.ok 3) ∧
    ((afterPark headFreed "C" "green").mem[3]?).map Slot.Position = some 3 ∧
    (AllSlots (afterPark headFreed "C" "green")).map
        (fun r => (returnedSlots r).map Slot.triple)
      = some [(1, "C", "green"), (2, "B", "blue"), (3, "C", "green")] ∧
    OccupancyCount (afterPark headFreed "C" "green") = some (1 + 2) :=
  ⟨Reachable.headFreed, by decide, by decide, by decide, by decide, by decide, by decide,
   by decide⟩

/-- C14. For every storey state produced by the operations whose chain is not
empty (`AllSlots` returns `l`), has its head at position 1 and has room
(`OccupancyCount` below `maxSlots`): `Park` returns without error a slot
showing `(q, plate, color)`, where `q` is the least positive integer that is
no position of `l`; afterwards `AllSlots` shows the former triples with that
one triple added at its ordered place (the triples before it have lower
positions, those after it higher ones, and all of them are unchanged), and
`OccupancyCount` has grown by one. -/
theorem C14_park_fills_first_gap (s : Storey) (hr : Reachable s) (numberPlate color : String)
    (l : List Slot) (cnt : Int)
    (hall : AllSlots s = some (.ok l)) (hhead : ∀ x ∈ l.head?, x.Position = 1)
    (hcnt : OccupancyCount s = some cnt) (hroom : cnt < s.maxSlots) :
    ∃ a s' v l' q, Park s numberPlate color = some (.ok a, s') ∧
      s'.mem[a]? = some v ∧ v.triple = (q, numberPlate, color) ∧
      1 ≤ q ∧ q ∉ l.map Slot.Position ∧ (∀ p, 1 ≤ p → p < q → p ∈ l.map Slot.Position) ∧
      AllSlots s' = some (.ok l') ∧
      (∃ t1 t2, l.map Slot.triple = t1 ++ t2 ∧
        l'.map Slot.triple = t1 ++ (q, numberPlate, color) :: t2 ∧
        (∀ t ∈ t1, t.1 < q) ∧ (∀ t ∈ t2, q < t.1)) ∧
      OccupancyCount s' = some (cnt + 1) := by
  obtain ⟨c, hc, hg⟩ := hr.inv
  have hall' := AllSlots_chain hc hg.nodup
  rw [hall] at hall'
  cases c with
  | nil => simp at hall'
  | cons x rest =>
    rw [if_neg (by simp)] at hall'
    have hl : l = (x :: rest).map Prod.snd := by
      injection hall' with h; injection h
    subst hl
    have hx1 : x.2.position = 1 := hhead x.2 (by simp)
    have hcnt' := OccupancyCount_chain hc hg.nodup
    rw [hcnt] at hcnt'
    have hcnt'' : cnt = ((x :: rest).length : Int) := by injection hcnt'
    subst hcnt''
    obtain ⟨s', h1, _, hc1, hg1⟩ := Park_chain hc hg numberPlate color hroom
    have hpos : ¬ x.2.position > 1 := by omega
    simp only [parkAbs, if_neg hpos] at h1 hc1 hg1
    obtain ⟨t1, t2, q, v, e1, e2, e3, e4, e5, e6, e7, e8, e9⟩ :=
      insertAbs_triples s.mem.length (freshSlot (NewCar numberPlate color) 0) rest x hg.sorted
    have hne : insertAbs s.mem.length (freshSlot (NewCar numberPlate color) 0) (x :: rest) ≠ [] := by
      intro h; rw [h] at e3; cases e3
    have hall1 := AllSlots_chain hc1 hg1.nodup
    rw [if_neg hne] at hall1
    have hposl : (List.map Prod.snd (x :: rest)).map Slot.Position
        = t1.map Prod.fst ++ t2.map Prod.fst := by
      have := congrArg (List.map Prod.fst) e1
      simp only [List.map_map, List.map_append] at this ⊢
      exact this
    refine ⟨s.mem.length, s', v, _, q, h1, hc1.mem_get _ e3, ?_, by omega, ?_, ?_, hall1,
      ⟨t1, t2, ?_, ?_, e8, e9⟩, ?_⟩
    · simp only [Slot.triple, Slot.Position, Slot.RegistrationNumber, Slot.Color, e4, e5]
      rfl
    · rw [hposl]
      intro hm
      rcases List.mem_append.1 hm with hm | hm
      · obtain ⟨t, ht, he⟩ := List.mem_map.1 hm
        have := e8 t ht
        omega
      · obtain ⟨t, ht, he⟩ := List.mem_map.1 hm
        have := e9 t ht
        omega
    · intro p hp1 hp2
      rw [hposl]
      exact List.mem_append_left _ (e7 p (by omega) hp2)
    · rw [List.map_map]
      exact e1
    · rw [List.map_map]
      exact e2
    · rw [OccupancyCount_chain hc1 hg1.nodup]
      have hlen := (insertAbs_fst s.mem.length (freshSlot (NewCar numberPlate color) 0)
        (x :: rest) (by simp)).length_eq
      simp only [List.length_map, List.length_cons] at hlen
      rw [hlen]
      simp

/-- Witness of C14: in the state `gapped` (positions 1 and 3, capacity 3) the
parked car gets position 2. -/
theorem C14_park_fills_first_gap_witness :
    Reachable gapped ∧
    AllSlots gapped = some (.ok [⟨none, some ⟨"P1", "red"⟩, 1, some 2⟩,
      ⟨some 1, some ⟨"P3", "red"⟩, 3, none⟩]) ∧
    OccupancyCount gapped = some 2 ∧ (2 : Int) < gapped.maxSlots ∧
    (Park gapped "P4" "black").map Prod.fst = some (.ok 3) ∧
    ((afterPark gapped "P4" "black").mem[3]?).map Slot.triple = some (2, "P4", "black") ∧
    ∃ a s' v l' q, Park gapped "P4" "black" = some (.ok a, s') ∧
      s'.mem[a]? = some v ∧ v.triple = (q, "P4", "black") ∧
      1 ≤ q ∧
      q ∉ List.map Slot.Position [⟨none, some ⟨"P1", "red"⟩, 1, some 2⟩,
        ⟨some 1, some ⟨"P3", "red"⟩, 3, none⟩] ∧
      (∀ p, 1 ≤ p → p < q →
        p ∈ List.map Slot.Position [⟨none, some ⟨"P1", "red"⟩, 1, some 2⟩,
          ⟨some 1, some ⟨"P3", "red"⟩, 3, none⟩]) ∧
      AllSlots s' = some (.ok l') ∧
      (∃ t1 t2, List.map Slot.triple [⟨none, some ⟨"P1", "red"⟩, 1, some 2⟩,
          ⟨some 1, some ⟨"P3", "red"⟩, 3, none⟩] = t1 ++ t2 ∧
        l'.map Slot.triple = t1 ++ (q, "P4", "black") :: t2 ∧
        (∀ t ∈ t1, t.1 < q) ∧ (∀ t ∈ t2, q < t.1)) ∧
      OccupancyCount s' = some (2 + 1) :=
  ⟨Reachable.gapped, by decide, by decide, by decide, by decide, by decide,
   C14_park_fills_first_gap gapped Reachable.gapped "P4" "black" _ 2 (by decide)
     (by intro x hx; cases hx; rfl) (by decide) (by decide)⟩

/-- C15. After `NewStorey(2)`, `Park(A)`, `Park(B)` the slot of B (address 1)
has the slot of A (address 0) as back reference; after `LeaveByPosition(1)`
has released the slot of A, the slot of B is the head and the only slot of
the chain, and its back reference still names the released slot. -/
theorem C15_head_keeps_back_reference :
    Reachable headFreed ∧
    twoParked.slotList = some 0 ∧ (twoParked.mem[1]?).map Slot.prevSlot = some (some 0) ∧
    (LeaveByPosition twoParked 1).map Prod.fst = some (.ok 0) ∧
    headFreed.slotList = some 1 ∧ OccupancyCount headFreed = some 1 ∧
    (headFreed.mem[1]?).map Slot.prevSlot = some (some 0) ∧
    (headFreed.mem[1]?).map Slot.prevSlot ≠ some none :=
  ⟨Reachable.headFreed, by decide, by decide, by decide, by decide, by decide, by decide,
   by decide⟩

/-- C16. After `NewStorey(3)`, `Park(A)`, `Park(B)`, `Park(C)`,
`LeaveByPosition(2)`, `LeaveByPosition(1)` the chain holds C at position 3;
`Park(D)` succeeds, and afterwards C is at position 2: the triple
(3, C, grey) is no longer in `AllSlots`. -/
theorem C16_park_renumbers_old_head :
    Reachable onlyThird ∧
    (AllSlots onlyThird).map (fun r => (returnedSlots r).map Slot.triple)
      = some [(3, "C", "grey")] ∧
    (Park onlyThird "D" "white").map Prod.fst = some (.ok 4) ∧
    (AllSlots (afterPark onlyThird "D" "white")).map
        (fun r => (returnedSlots r).map Slot.triple)
      = some [(1, "D", "white"), (2, "C", "grey"), (3, "D", "white")] ∧
    ((3, "C", "grey") : Int × String × String) ∉
      ([(1, "D", "white"), (2, "C", "grey"), (3, "D", "white")] : List (Int × String × String)) :=
  ⟨Reachable.onlyThird, by decide, by decide, by decide, by decide⟩

/-- C17. For every storey state produced by the operations and every plate
for which `FindByRegistrationNumber` returns a slot `a`, whose position is
`x.Position`: `Leave` of the plate and `LeaveByPosition` of that position
give the same result (the same returned slot and the same storey), and that
result is a success returning `a`. -/
theorem C17_leave_agrees_with_leave_by_position (s : Storey) (hr : Reachable s)
    (numberPlate : String) (a : Nat) (x : Slot)
    (hf : FindByRegistrationNumber s numberPlate = some (.ok a))
    (hx : s.mem[a]? = some x) :
    LeaveByPosition s x.Position = Leave s numberPlate ∧
    ∃ s', Leave s numberPlate = some (.ok a, s') := by
  obtain ⟨l, hc, hg⟩ := hr.inv
  rw [FindByRegistrationNumber_chain hc hg] at hf
  by_cases hl : l = []
  · rw [if_pos hl] at hf
    cases hf
  rw [if_neg hl] at hf
  have hf' : firstAddr (fun x => decide (x.2.RegistrationNumber = numberPlate)) l = .ok a := by
    injection hf
  obtain ⟨l1, y, l2, e, hy, _, _⟩ := firstAddr_ok hf'
  subst e; subst hy
  have hyx : y.2 = x := by
    have := hc.mem_get y (by simp)
    rw [this] at hx
    injection hx
  subst hyx
  have hsorted := hg.sorted
  rw [List.pairwise_append] at hsorted
  have hpos : firstAddr (fun z => decide (z.2.position = y.2.Position)) (l1 ++ y :: l2)
      = .ok y.1 := by
    refine firstAddr_split (by simp [Slot.Position]) ?_
    intro z hz
    have := hsorted.2.2 z hz y (by simp)
    simp only [Slot.Position, decide_eq_false_iff_not]
    omega
  obtain ⟨s', l', hu, _⟩ := unlink_chain hc hg
  have hL := Leave_chain hc hg numberPlate
  rw [if_neg hl, hf'] at hL
  have hP := LeaveByPosition_chain hc hg y.2.Position
  rw [if_neg hl, hpos] at hP
  rw [hL, hP]
  exact ⟨rfl, s', hu⟩

/-- Witness of C17: plate P2 of the state `threeColors` is in the slot at
address 1, position 2. -/
theorem C17_leave_agrees_with_leave_by_position_witness :
    Reachable threeColors ∧
    FindByRegistrationNumber threeColors "P2" = some (.ok 1) ∧
    threeColors.mem[1]? = some ⟨some 0, some ⟨"P2", "blue"⟩, 2, some 2⟩ ∧
    LeaveByPosition threeColors (Slot.Position ⟨some 0, some ⟨"P2", "blue"⟩, 2, some 2⟩)
      = Leave threeColors "P2" ∧
    ∃ s', Leave threeColors "P2" = some (.ok 1, s') :=
  ⟨Reachable.threeColors, by decide, by decide,
   C17_leave_agrees_with_leave_by_position threeColors Reachable.threeColors "P2" 1
     ⟨some 0, some ⟨"P2", "blue"⟩, 2, some 2⟩ (by decide) (by decide)⟩

/-- C18. For every storey state produced by the operations: `OccupancyCount`
returns a number that is 0 exactly when the head is absent; and when the head
is present, the `nextSlot` path from the head visits each of its cells once
(`c`, with distinct addresses, ending in nil), `AllSlots` returns the slots
of exactly these cells in path order, and `OccupancyCount` is the length of
that sequence. -/
theorem C18_count_reflects_chain (s : Storey) (hr : Reachable s) :
    ∃ cnt, OccupancyCount s = some cnt ∧ (cnt = 0 ↔ s.slotList = none) ∧
      (s.slotList ≠ none →
        ∃ c l, IsChain s.mem s.slotList c ∧ (c.map Prod.fst).Nodup ∧ l = c.map Prod.snd ∧
          AllSlots s = some (.ok l) ∧ cnt = (l.length : Int)) := by
  obtain ⟨l, hc, hg⟩ := hr.inv
  have hnil := IsChain.slotList_eq_none_iff hc
  refine ⟨l.length, OccupancyCount_chain hc hg.nodup, ?_, ?_⟩
  · rw [hnil]
    constructor
    · intro h
      exact List.length_eq_zero.1 (by exact_mod_cast h)
    · intro h; subst h; rfl
  · intro hne
    have hl : l ≠ [] := fun h => hne (hnil.2 h)
    have hall := AllSlots_chain hc hg.nodup
    rw [if_neg hl] at hall
    exact ⟨l, _, hc, hg.nodup, rfl, hall, by simp⟩

/-- Witness of C18 on the state `threeColors`. -/
theorem C18_count_reflects_chain_witness :
    Reachable threeColors ∧
    ∃ cnt, OccupancyCount threeColors = some cnt ∧ (cnt = 0 ↔ threeColors.slotList = none) ∧
      (threeColors.slotList ≠ none →
        ∃ c l, IsChain threeColors.mem threeColors.slotList c ∧ (c.map Prod.fst).Nodup ∧
          l = c.map Prod.snd ∧
          AllSlots threeColors = some (.ok l) ∧ cnt = (l.length : Int)) :=
  ⟨Reachable.threeColors, C18_count_reflects_chain threeColors Reachable.threeColors⟩

end ParkingLot
